import Mathlib

/-!
# Verification of `recursive_call_tracker.call_tracker`

A shallow embedding of `src/recursive_call_tracker/call_tracker.py` and proofs
about it.  Python objects live in an arena (`List RecursiveCall`) and are
referred to by their index, which models object identity; the mutable state of
a `CallTracker` instance is the structure `CallTracker` below, and the wrapper
closure produced by `CallTracker.__call__` is the state transformer `wrapper`.
A wrapped function body is modelled as a state transformer returning
`Except PyErr PyVal` (a Python function either returns a value or raises).
-/

set_option autoImplicit false

/-- Python values that appear as arguments and return values in this model. -/
inductive PyVal where
  | none : PyVal
  | int : Int → PyVal
  | bool : Bool → PyVal
deriving DecidableEq

/-- Python `repr` of the modelled values. -/
def pyRepr : PyVal → String
  | PyVal.none => "None"
  | PyVal.int n => toString n
  | PyVal.bool true => "True"
  | PyVal.bool false => "False"

/-- `repr` of a `result` slot: the enum member `Uninitialized.UNINITIALIZED`
prints as `UNINITIALIZED` (its `__repr__` is its `_name_`); the slot is
modelled as `Option PyVal` with `Option.none` for the sentinel, mirroring the
source annotation `object | t.Literal[UNINITIALIZED]`. -/
def reprResult : Option PyVal → String
  | Option.none => "UNINITIALIZED"
  | Option.some v => pyRepr v

/-- Python `repr` of an args tuple. -/
def reprArgs : List PyVal → String
  | [] => "()"
  | [v] => "(" ++ pyRepr v ++ ",)"
  | v :: vs => "(" ++ pyRepr v ++ String.join (vs.map (fun u => ", " ++ pyRepr u)) ++ ")"

/-- Modelled from the spec: `recursive_call_tracker.utils.prettify_kwargs_repr`
is imported by the source file but its module is not under `src/`; the spec
describes it as a deterministic, total formatter producing a readable
`key=value, key=value` style rendering of the keyword-argument mapping. -/
def prettifyKwargsRepr (kwargs : List (String × PyVal)) : String :=
  String.intercalate ", " (kwargs.map (fun kv => kv.1 ++ "=" ++ pyRepr kv.2))

/-- One `RecursiveCall` object (class `RecursiveCall` in the source).
`caller` and `callees` hold arena indices of other records; `result` is
`Option.none` while the sentinel `UNINITIALIZED` is stored. -/
structure RecursiveCall where
  caller : Option Nat
  callees : List Nat
  args : List PyVal
  kwargs : List (String × PyVal)
  result : Option PyVal
deriving DecidableEq

/-- `RecursiveCall.__init__` with the defaulted `caller=None`:
`callees = []`, `result = UNINITIALIZED`. -/
def mkRecursiveCall (args : List PyVal) (kwargs : List (String × PyVal)) : RecursiveCall :=
  { caller := Option.none, callees := [], args := args, kwargs := kwargs,
    result := Option.none }

/-- The heap of all `RecursiveCall` objects ever created, indexed by creation
order; an index models a Python object reference. -/
abbrev Arena := List RecursiveCall

/-- Apply `f` to the element at index `i` (identity when out of range). -/
def modifyAt (a : Arena) (i : Nat) (f : RecursiveCall → RecursiveCall) : Arena :=
  match a, i with
  | [], _ => []
  | x :: xs, 0 => f x :: xs
  | x :: xs, Nat.succ n => x :: modifyAt xs n f

/-- Dereference an arena index (a default record when out of range; in the
source this situation would be a dangling reference and never occurs). -/
def getNode (a : Arena) (i : Nat) : RecursiveCall :=
  (a.get? i).getD (mkRecursiveCall [] [])

/-- `RecursiveCall.add_callee`: appends `callee` to `self.callees` and sets
`callee.caller = self`, with no precondition check. -/
def addCallee (a : Arena) (selfId calleeId : Nat) : Arena :=
  modifyAt (modifyAt a selfId (fun r => { r with callees := r.callees ++ [calleeId] }))
    calleeId (fun r => { r with caller := Option.some selfId })

/-- The mutable state of a `CallTracker` instance together with the arena of
records it has created.  `callStacks` models the `defaultdict(list)`
`_call_stacks` (thread ident → stack of records), `startCalls` models
`start_calls`. -/
structure CallTracker where
  callStacks : Nat → List Nat
  startCalls : List Nat
  arena : Arena

/-- `CallTracker.__init__`: empty default stacks, no start calls, no records. -/
def initCallTracker : CallTracker :=
  { callStacks := fun _ => [], startCalls := [], arena := [] }

/-- A Python failure raised by a wrapped function (or by the tracker itself:
`list.pop` on an empty list raises `IndexError`). -/
inductive PyErr where
  | indexError : PyErr
  | exc : String → PyVal → PyErr
deriving DecidableEq

/-- Store an updated call-stack list for thread `tid` in the stack map
(the in-place mutation of the `defaultdict` entry). -/
def setStack (sm : Nat → List Nat) (tid : Nat) (l : List Nat) : Nat → List Nat :=
  fun t => if t = tid then l else sm t

theorem setStack_same (sm : Nat → List Nat) (tid : Nat) (l : List Nat) :
    setStack sm tid l tid = l := by
  simp [setStack]

theorem setStack_setStack (sm : Nat → List Nat) (tid : Nat) (l m : List Nat) :
    setStack (setStack sm tid l) tid m = setStack sm tid m := by
  funext t
  by_cases h : t = tid <;> simp [setStack, h]

theorem setStack_self (sm : Nat → List Nat) (tid : Nat) :
    setStack sm tid (sm tid) = sm := by
  funext t
  by_cases h : t = tid <;> simp [setStack, h]

/-- The behaviour of a wrapped function on one invocation: it may re-enter the
tracker (mutating its state) and either returns a value or raises. -/
abbrev Body := CallTracker → Except PyErr PyVal × CallTracker

/-- The `wrapper` closure in `CallTracker.__call__`, for the thread with
ident `tid` and one invocation with `args`/`kwargs` whose wrapped-function
behaviour is `body`:

* line 126: `call = RecursiveCall(args, kwargs)` — a fresh record is created;
* line 127: `call_stack = self._call_stacks[threading.get_ident()]`;
* lines 129-132: attach to the top of the stack, else append to `start_calls`;
* line 134: `call_stack.append(call)`;
* line 136: `result = func(*args, **kwargs)` — there is no `try`/`finally`,
  so when `func` raises, the exception propagates and lines 138-140 never run;
* line 138: `call_stack.pop().result = result` — pops whatever is topmost
  (raising `IndexError` when the stack is empty) and stores the result there;
* line 140: `return result`. -/
def wrapper (tid : Nat) (args : List PyVal) (kwargs : List (String × PyVal))
    (body : Body) (s : CallTracker) : Except PyErr PyVal × CallTracker :=
  let callId := s.arena.length
  let s1 : CallTracker := { s with arena := s.arena ++ [mkRecursiveCall args kwargs] }
  let stack := s1.callStacks tid
  let s2 : CallTracker :=
    match stack.getLast? with
    | Option.some top => { s1 with arena := addCallee s1.arena top callId }
    | Option.none => { s1 with startCalls := s1.startCalls ++ [callId] }
  let s3 : CallTracker :=
    { s2 with callStacks := setStack s2.callStacks tid (s2.callStacks tid ++ [callId]) }
  match body s3 with
  | (Except.error e, s4) => (Except.error e, s4)
  | (Except.ok v, s4) =>
    match (s4.callStacks tid).getLast? with
    | Option.none => (Except.error PyErr.indexError, s4)
    | Option.some popped =>
      let s5 : CallTracker :=
        { s4 with
          callStacks := setStack s4.callStacks tid ((s4.callStacks tid).dropLast),
          arena := modifyAt s4.arena popped (fun r => { r with result := Option.some v }) }
      (Except.ok v, s5)

/-! ## Structured call programs

`CallProg` describes the behaviour of a wrapped function across one properly
nested, same-thread invocation that returns normally: its arguments, the
tracked sub-invocations its body performs in order, and its return value.
`runProg` executes such an invocation through `wrapper`, so everything proved
about `runProg` is about the source's wrapper. -/

mutual
inductive CallProg where
  | mk : List PyVal → List (String × PyVal) → CallProgs → PyVal → CallProg
inductive CallProgs where
  | nil : CallProgs
  | cons : CallProg → CallProgs → CallProgs
end

/-- Return value of a call program. -/
def CallProg.ret : CallProg → PyVal
  | CallProg.mk _ _ _ r => r

mutual

/-- Number of invocations described by a call program. -/
def szP : CallProg → Nat
  | CallProg.mk _ _ subs _ => 1 + szPs subs

/-- Number of invocations described by a list of call programs. -/
def szPs : CallProgs → Nat
  | CallProgs.nil => 0
  | CallProgs.cons p rest => szP p + szPs rest

end

mutual

/-- Execute one tracked invocation through the source's `wrapper`. -/
def runProg (tid : Nat) (p : CallProg) (s : CallTracker) : Except PyErr PyVal × CallTracker :=
  match p with
  | CallProg.mk args kwargs subs ret =>
    wrapper tid args kwargs (fun s0 => runProgs tid subs ret s0) s

/-- The body of a tracked invocation: run the nested tracked invocations in
order, then return `ret`. -/
def runProgs (tid : Nat) (ps : CallProgs) (ret : PyVal) (s : CallTracker) :
    Except PyErr PyVal × CallTracker :=
  match ps with
  | CallProgs.nil => (Except.ok ret, s)
  | CallProgs.cons p rest => runProgs tid rest ret (runProg tid p s).2

end

theorem szP_pos (p : CallProg) : 0 < szP p := by
  match p with
  | CallProg.mk _ _ subs _ => simp [szP]

/-- Arena indices of the records created for the roots of a list of call
programs, when records are allocated depth-first starting at `base`. -/
def childIds (base : Nat) : CallProgs → List Nat
  | CallProgs.nil => []
  | CallProgs.cons p rest => base :: childIds (base + szP p) rest

mutual

/-- The block of records that one tracked invocation (and its nested
invocations) appends to the arena, when its own record is allocated at index
`base` and its caller is `caller`. -/
def flattenProg (base : Nat) (caller : Option Nat) (p : CallProg) : Arena :=
  match p with
  | CallProg.mk args kwargs subs ret =>
    { caller := caller, callees := childIds (base + 1) subs, args := args,
      kwargs := kwargs, result := Option.some ret }
      :: flattenProgs (base + 1) base subs

/-- The block of records appended by a list of sibling invocations whose
parent record is at index `parent`. -/
def flattenProgs (base : Nat) (parent : Nat) (ps : CallProgs) : Arena :=
  match ps with
  | CallProgs.nil => []
  | CallProgs.cons p rest =>
    flattenProg base (Option.some parent) p ++ flattenProgs (base + szP p) parent rest

end

/-- All record indices in the thread's call stack are valid arena indices. -/
def StackOK (s : CallTracker) (tid : Nat) : Prop :=
  ∀ j ∈ s.callStacks tid, j < s.arena.length

/-! ### Arena update lemmas -/

theorem modifyAt_length (a : Arena) (i : Nat) (f : RecursiveCall → RecursiveCall) :
    (modifyAt a i f).length = a.length := by
  induction a generalizing i with
  | nil => simp [modifyAt]
  | cons x xs ih =>
    cases i with
    | zero => simp [modifyAt]
    | succ n => simp [modifyAt, ih]

theorem modifyAt_append_left (a b : Arena) (i : Nat) (f : RecursiveCall → RecursiveCall)
    (h : i < a.length) : modifyAt (a ++ b) i f = modifyAt a i f ++ b := by
  induction a generalizing i with
  | nil => simp at h
  | cons x xs ih =>
    cases i with
    | zero => simp [modifyAt]
    | succ n =>
      simp only [List.cons_append, modifyAt, List.cons.injEq, true_and]
      exact ih n (by simpa using h)

theorem modifyAt_append_at (a b : Arena) (x : RecursiveCall)
    (f : RecursiveCall → RecursiveCall) :
    modifyAt (a ++ x :: b) a.length f = a ++ f x :: b := by
  induction a with
  | nil => simp [modifyAt]
  | cons y ys ih => simp [modifyAt, ih]

theorem modifyAt_modifyAt (a : Arena) (i : Nat) (f g : RecursiveCall → RecursiveCall) :
    modifyAt (modifyAt a i f) i g = modifyAt a i (fun r => g (f r)) := by
  induction a generalizing i with
  | nil => simp [modifyAt]
  | cons x xs ih =>
    cases i with
    | zero => simp [modifyAt]
    | succ n => simp [modifyAt, ih]

theorem modifyAt_id (a : Arena) (i : Nat) (f : RecursiveCall → RecursiveCall)
    (h : ∀ r, f r = r) : modifyAt a i f = a := by
  induction a generalizing i with
  | nil => rfl
  | cons x xs ih =>
    cases i with
    | zero => simp [modifyAt, h]
    | succ n => simp [modifyAt, ih]

mutual

theorem flattenProg_length (base : Nat) (caller : Option Nat) (p : CallProg) :
    (flattenProg base caller p).length = szP p := by
  match p with
  | CallProg.mk args kwargs subs ret =>
    simp only [flattenProg, szP, List.length_cons]
    rw [flattenProgs_length]
    omega

theorem flattenProgs_length (base : Nat) (parent : Nat) (ps : CallProgs) :
    (flattenProgs base parent ps).length = szPs ps := by
  match ps with
  | CallProgs.nil => rfl
  | CallProgs.cons p rest =>
    simp only [flattenProgs, szPs, List.length_append]
    rw [flattenProg_length, flattenProgs_length]

end

/-- The tracker state after the attach/push steps of `wrapper` (lines
126-134 of the source), i.e. the state in which the wrapped function's body
starts executing. -/
def pushState (tid : Nat) (args : List PyVal) (kwargs : List (String × PyVal))
    (s : CallTracker) : CallTracker :=
  let callId := s.arena.length
  let s1 : CallTracker := { s with arena := s.arena ++ [mkRecursiveCall args kwargs] }
  let stack := s1.callStacks tid
  let s2 : CallTracker :=
    match stack.getLast? with
    | Option.some top => { s1 with arena := addCallee s1.arena top callId }
    | Option.none => { s1 with startCalls := s1.startCalls ++ [callId] }
  { s2 with callStacks := setStack s2.callStacks tid (s2.callStacks tid ++ [callId]) }

/-- `wrapper` factors through `pushState`: the body runs in the pushed state,
then the result (or the propagating failure) is handled. -/
theorem wrapper_eq_pushState (tid : Nat) (args : List PyVal)
    (kwargs : List (String × PyVal)) (body : Body) (s : CallTracker) :
    wrapper tid args kwargs body s =
      match body (pushState tid args kwargs s) with
      | (Except.error e, s4) => (Except.error e, s4)
      | (Except.ok v, s4) =>
        match (s4.callStacks tid).getLast? with
        | Option.none => (Except.error PyErr.indexError, s4)
        | Option.some popped =>
          (Except.ok v,
           { s4 with
             callStacks := setStack s4.callStacks tid ((s4.callStacks tid).dropLast),
             arena := modifyAt s4.arena popped
               (fun r => { r with result := Option.some v }) }) := rfl

theorem pushState_callStacks (tid : Nat) (args : List PyVal)
    (kwargs : List (String × PyVal)) (s : CallTracker) :
    (pushState tid args kwargs s).callStacks =
      setStack s.callStacks tid (s.callStacks tid ++ [s.arena.length]) := by
  simp only [pushState]
  cases h : (s.callStacks tid).getLast? <;> simp

theorem pushState_arena_length (tid : Nat) (args : List PyVal)
    (kwargs : List (String × PyVal)) (s : CallTracker) :
    (pushState tid args kwargs s).arena.length = s.arena.length + 1 := by
  simp only [pushState]
  cases h : (s.callStacks tid).getLast? <;>
    simp [addCallee, modifyAt_length]


theorem modifyAt_block (a : Arena) (x : RecursiveCall) (F : Arena)
    (f g : RecursiveCall → RecursiveCall) (n : Nat) (hn : n = a.length) :
    modifyAt (modifyAt (a ++ [x]) n f ++ F) n g = a ++ g (f x) :: F := by
  subst hn
  have h1 : modifyAt (a ++ [x]) a.length f = a ++ f x :: [] := modifyAt_append_at a [] x f
  rw [h1]
  have h2 : (a ++ f x :: []) ++ F = a ++ f x :: F := by simp
  rw [h2, modifyAt_append_at]

theorem addCallee_push (a : Arena) (top : Nat) (x : RecursiveCall) (h : top < a.length) :
    addCallee (a ++ [x]) top a.length =
      modifyAt a top (fun r => { r with callees := r.callees ++ [a.length] })
        ++ [{ x with caller := Option.some top }] := by
  unfold addCallee
  rw [modifyAt_append_left _ _ _ _ h]
  generalize hA : modifyAt a top
    (fun r => { r with callees := r.callees ++ [a.length] }) = A
  have hl : a.length = A.length := by rw [← hA, modifyAt_length]
  rw [hl]
  exact modifyAt_append_at A [] x _

theorem childIds_cons (base : Nat) (p : CallProg) (rest : CallProgs) :
    childIds base (CallProgs.cons p rest) = base :: childIds (base + szP p) rest := rfl

mutual

theorem runProg_spec (tid : Nat) (p : CallProg) (s : CallTracker) (h : StackOK s tid) :
    runProg tid p s =
      (Except.ok p.ret,
       { callStacks := s.callStacks,
         startCalls :=
           match (s.callStacks tid).getLast? with
           | Option.none => s.startCalls ++ [s.arena.length]
           | Option.some _ => s.startCalls,
         arena :=
           (match (s.callStacks tid).getLast? with
            | Option.none => s.arena
            | Option.some top =>
              modifyAt s.arena top
                (fun r => { r with callees := r.callees ++ [s.arena.length] }))
           ++ flattenProg s.arena.length ((s.callStacks tid).getLast?) p }) := by
  match p with
  | CallProg.mk args kwargs subs ret =>
    have hstk := pushState_callStacks tid args kwargs s
    have hlast : ((pushState tid args kwargs s).callStacks tid).getLast?
        = Option.some s.arena.length := by
      rw [hstk, setStack_same, List.getLast?_concat]
    cases hL : (s.callStacks tid).getLast? with
    | none =>
      have harena : (pushState tid args kwargs s).arena
          = s.arena ++ [mkRecursiveCall args kwargs] := by
        simp only [pushState, hL]
      have hps : (pushState tid args kwargs s).startCalls
          = s.startCalls ++ [s.arena.length] := by
        simp only [pushState, hL]
      have hok : StackOK (pushState tid args kwargs s) tid := by
        intro j hj
        rw [hstk, setStack_same] at hj
        rw [harena]
        simp only [List.length_append, List.length_singleton]
        rcases List.mem_append.mp hj with hj | hj
        · exact Nat.lt_succ_of_lt (h j hj)
        · have : j = s.arena.length := by simpa using hj
          omega
      have hbody := runProgs_spec tid subs ret (pushState tid args kwargs s)
        s.arena.length hok hlast
      simp only [runProg, wrapper_eq_pushState, hbody, hstk, setStack_same,
        List.getLast?_concat, List.dropLast_concat, setStack_setStack, setStack_self,
        hps, harena, CallProg.ret, List.length_append, List.length_singleton]
      refine congrArg (fun A => ((Except.ok ret : Except PyErr PyVal),
        ({ callStacks := s.callStacks, startCalls := s.startCalls ++ [s.arena.length],
           arena := A } : CallTracker))) ?_
      rw [modifyAt_block _ _ _ _ _ _ rfl]
      simp [flattenProg, mkRecursiveCall]
    | some top =>
      have htop : top < s.arena.length :=
        h top (List.mem_of_mem_getLast? (by rw [hL]; rfl))
      have harena : (pushState tid args kwargs s).arena
          = modifyAt s.arena top
              (fun r => { r with callees := r.callees ++ [s.arena.length] })
            ++ [{ mkRecursiveCall args kwargs with caller := Option.some top }] := by
        simp only [pushState, hL]
        exact addCallee_push s.arena top (mkRecursiveCall args kwargs) htop
      have hps : (pushState tid args kwargs s).startCalls = s.startCalls := by
        simp only [pushState, hL]
      have hok : StackOK (pushState tid args kwargs s) tid := by
        intro j hj
        rw [hstk, setStack_same] at hj
        rw [harena]
        simp only [List.length_append, List.length_singleton, modifyAt_length]
        rcases List.mem_append.mp hj with hj | hj
        · exact Nat.lt_succ_of_lt (h j hj)
        · have : j = s.arena.length := by simpa using hj
          omega
      have hbody := runProgs_spec tid subs ret (pushState tid args kwargs s)
        s.arena.length hok hlast
      simp only [runProg, wrapper_eq_pushState, hbody, hstk, setStack_same,
        List.getLast?_concat, List.dropLast_concat, setStack_setStack, setStack_self,
        hps, harena, CallProg.ret, List.length_append, List.length_singleton,
        modifyAt_length]
      refine congrArg (fun A => ((Except.ok ret : Except PyErr PyVal),
        ({ callStacks := s.callStacks, startCalls := s.startCalls,
           arena := A } : CallTracker))) ?_
      rw [modifyAt_block _ _ _ _ _ _ (by rw [modifyAt_length])]
      simp [flattenProg, mkRecursiveCall]

theorem runProgs_spec (tid : Nat) (ps : CallProgs) (ret : PyVal) (s : CallTracker)
    (T : Nat) (h : StackOK s tid)
    (hT : (s.callStacks tid).getLast? = Option.some T) :
    runProgs tid ps ret s =
      (Except.ok ret,
       { callStacks := s.callStacks, startCalls := s.startCalls,
         arena := modifyAt s.arena T
             (fun r => { r with callees := r.callees ++ childIds s.arena.length ps })
           ++ flattenProgs s.arena.length T ps }) := by
  match ps with
  | CallProgs.nil =>
    have h1 : modifyAt s.arena T
        (fun r => { r with callees := r.callees ++ childIds s.arena.length CallProgs.nil })
        = s.arena := by
      apply modifyAt_id
      intro r
      simp [childIds]
    simp only [runProgs, h1, flattenProgs, List.append_nil]
  | CallProgs.cons p rest =>
    have hTlt : T < s.arena.length :=
      h T (List.mem_of_mem_getLast? (by rw [hT]; rfl))
    have hstep := runProg_spec tid p s h
    rw [hT] at hstep
    simp only [runProgs, hstep]
    have h2 : StackOK
        { callStacks := s.callStacks, startCalls := s.startCalls,
          arena := modifyAt s.arena T
              (fun r => { r with callees := r.callees ++ [s.arena.length] })
            ++ flattenProg s.arena.length (Option.some T) p } tid := by
      intro j hj
      have := h j hj
      simp only [List.length_append, modifyAt_length]
      omega
    rw [runProgs_spec tid rest ret _ T h2 hT]
    simp only [List.length_append, modifyAt_length, flattenProg_length]
    refine congrArg (fun A => ((Except.ok ret : Except PyErr PyVal),
      ({ callStacks := s.callStacks, startCalls := s.startCalls,
         arena := A } : CallTracker))) ?_
    rw [modifyAt_append_left _ _ _ _ (by rw [modifyAt_length]; exact hTlt),
      modifyAt_modifyAt, List.append_assoc]
    have hflat : flattenProg s.arena.length (Option.some T) p
        ++ flattenProgs (s.arena.length + szP p) T rest
        = flattenProgs s.arena.length T (CallProgs.cons p rest) := by
      simp only [flattenProgs]
    rw [hflat]
    refine congrArg (fun f => modifyAt s.arena T f
      ++ flattenProgs s.arena.length T (CallProgs.cons p rest)) ?_
    funext r
    simp [childIds_cons]

end

/-! ## C1, C2: behaviour of the wrapper toward its caller -/

/-- C1: when the wrapped function raises, the failure observed by the caller
of the instrumented function is identical to the failure the undecorated
function would have produced (the same `e`); but, contrary to the claim, the
invoking thread's call stack is NOT popped before the failure propagates:
after the failed call the stack still holds the failed call's record on top,
so it has one MORE entry than immediately before the call began, not the same
number (there is no `try`/`finally` around line 136 of the source). -/
theorem wrapper_failure_skips_pop (tid : Nat) (args : List PyVal)
    (kwargs : List (String × PyVal)) (e : PyErr) (s : CallTracker) :
    (wrapper tid args kwargs (fun st => (Except.error e, st)) s).1 = Except.error e ∧
    (wrapper tid args kwargs (fun st => (Except.error e, st)) s).2.callStacks tid
      = s.callStacks tid ++ [s.arena.length] ∧
    ((wrapper tid args kwargs (fun st => (Except.error e, st)) s).2.callStacks tid).length
      = (s.callStacks tid).length + 1 := by
  refine ⟨?_, ?_, ?_⟩
  · rw [wrapper_eq_pushState]
  · rw [wrapper_eq_pushState]
    show (pushState tid args kwargs s).callStacks tid = _
    rw [pushState_callStacks, setStack_same]
  · rw [wrapper_eq_pushState]
    show ((pushState tid args kwargs s).callStacks tid).length = _
    rw [pushState_callStacks, setStack_same]
    simp

/-- C2: for every properly nested invocation that returns normally with value
`r = p.ret`, the instrumented function hands exactly that value back to the
original caller. -/
theorem runProg_returns_value (tid : Nat) (p : CallProg) (s : CallTracker)
    (h : StackOK s tid) :
    (runProg tid p s).1 = Except.ok p.ret := by
  rw [runProg_spec tid p s h]

/-- Witness for C2 at a concrete input: wrapping a function of `(1,)` /
`{"x": 3}` returning `7`, called once on thread `0` of a fresh tracker. -/
theorem runProg_returns_value_witness :
    StackOK initCallTracker 0 ∧
    (runProg 0 (CallProg.mk [PyVal.int 1] [("x", PyVal.int 3)] CallProgs.nil
      (PyVal.int 7)) initCallTracker).1 = Except.ok (PyVal.int 7) :=
  ⟨fun j hj => absurd hj (by simp [initCallTracker]),
   runProg_returns_value 0
     (CallProg.mk [PyVal.int 1] [("x", PyVal.int 3)] CallProgs.nil (PyVal.int 7))
     initCallTracker (fun j hj => absurd hj (by simp [initCallTracker]))⟩

/-! ## Sessions: sequences of top-level tracked invocations on one thread -/

/-- Run a sequence of top-level properly nested invocations on thread `tid`. -/
def runSession (tid : Nat) (ps : List CallProg) (s : CallTracker) : CallTracker :=
  match ps with
  | [] => s
  | p :: rest => runSession tid rest (runProg tid p s).2

/-- The arena blocks appended by a sequence of top-level invocations. -/
def flattenRoots (base : Nat) : List CallProg → Arena
  | [] => []
  | p :: ps => flattenProg base Option.none p ++ flattenRoots (base + szP p) ps

/-- The arena indices of the root records of a sequence of top-level
invocations. -/
def rootIdsOf (base : Nat) : List CallProg → List Nat
  | [] => []
  | p :: ps => base :: rootIdsOf (base + szP p) ps

theorem runProg_callStacks (tid : Nat) (p : CallProg) (s : CallTracker)
    (h : StackOK s tid) : (runProg tid p s).2.callStacks = s.callStacks := by
  rw [runProg_spec tid p s h]

theorem runProg_startCalls_of_empty (tid : Nat) (p : CallProg) (s : CallTracker)
    (h : StackOK s tid) (he : s.callStacks tid = []) :
    (runProg tid p s).2.startCalls = s.startCalls ++ [s.arena.length] := by
  rw [runProg_spec tid p s h, he]
  rfl

theorem runProg_arena_length (tid : Nat) (p : CallProg) (s : CallTracker)
    (h : StackOK s tid) :
    (runProg tid p s).2.arena.length = s.arena.length + szP p := by
  rw [runProg_spec tid p s h]
  show ((match (s.callStacks tid).getLast? with
    | Option.none => s.arena
    | Option.some top => modifyAt s.arena top
        (fun r => { r with callees := r.callees ++ [s.arena.length] }))
    ++ flattenProg s.arena.length ((s.callStacks tid).getLast?) p).length = _
  rw [List.length_append, flattenProg_length]
  cases (s.callStacks tid).getLast? <;> simp [modifyAt_length]

theorem runProg_StackOK (tid : Nat) (p : CallProg) (s : CallTracker)
    (h : StackOK s tid) : StackOK (runProg tid p s).2 tid := by
  intro j hj
  rw [runProg_callStacks tid p s h] at hj
  rw [runProg_arena_length tid p s h]
  exact Nat.lt_of_lt_of_le (h j hj) (Nat.le_add_right _ _)

theorem StackOK_of_empty {s : CallTracker} {tid : Nat}
    (he : s.callStacks tid = []) : StackOK s tid := by
  intro j hj
  rw [he] at hj
  cases hj

/-- Full characterization of a session that starts with an empty stack for
`tid`: the stack ends empty again, roots are appended to `start_calls` in
order, and the arena receives one depth-first block per top-level call. -/
theorem runSession_spec (tid : Nat) (ps : List CallProg) (s : CallTracker)
    (he : s.callStacks tid = []) :
    runSession tid ps s =
      { callStacks := s.callStacks,
        startCalls := s.startCalls ++ rootIdsOf s.arena.length ps,
        arena := s.arena ++ flattenRoots s.arena.length ps } := by
  induction ps generalizing s with
  | nil => simp [runSession, rootIdsOf, flattenRoots]
  | cons p rest ih =>
    rw [runSession]
    have h : StackOK s tid := StackOK_of_empty he
    have hstep := runProg_spec tid p s h
    rw [he] at hstep
    simp only [List.getLast?_nil] at hstep
    rw [hstep]
    have he2 : s.callStacks tid = [] := he
    rw [ih _ (by exact he2)]
    simp only [CallTracker.mk.injEq, true_and, List.length_append,
      flattenProg_length, List.append_assoc]
    constructor
    · rfl
    · rfl

/-! ## Creation log: dynamic nesting depth at the moment each call begins

`callLog` records, for each invocation performed while running a call
program, the arena index of the record it creates (`s.arena.length` at entry,
line 126) together with the number of tracked calls active on the thread at
that moment (`len(call_stack)` just before the push at line 134). -/

mutual

def callLog (tid : Nat) (p : CallProg) (s : CallTracker) : List (Nat × Nat) :=
  match p with
  | CallProg.mk args kwargs subs _ =>
    (s.arena.length, (s.callStacks tid).length)
      :: callLogs tid subs (pushState tid args kwargs s)

def callLogs (tid : Nat) (ps : CallProgs) (s : CallTracker) : List (Nat × Nat) :=
  match ps with
  | CallProgs.nil => []
  | CallProgs.cons p rest => callLog tid p s ++ callLogs tid rest (runProg tid p s).2

end

/-- The log of a whole session. -/
def sessionLog (tid : Nat) (ps : List CallProg) (s : CallTracker) : List (Nat × Nat) :=
  match ps with
  | [] => []
  | p :: rest => callLog tid p s ++ sessionLog tid rest (runProg tid p s).2

mutual

/-- The expected creation log of one invocation: its own record at index
`base` and nesting depth `d`, then its children depth-first. -/
def progLog (base d : Nat) (p : CallProg) : List (Nat × Nat) :=
  match p with
  | CallProg.mk _ _ subs _ => (base, d) :: progLogs (base + 1) (d + 1) subs

def progLogs (base d : Nat) (ps : CallProgs) : List (Nat × Nat) :=
  match ps with
  | CallProgs.nil => []
  | CallProgs.cons p rest => progLog base d p ++ progLogs (base + szP p) d rest

end

/-- Expected log of a session of top-level calls, all beginning at depth 0. -/
def sessionProgLog (base : Nat) : List CallProg → List (Nat × Nat)
  | [] => []
  | p :: ps => progLog base 0 p ++ sessionProgLog (base + szP p) ps

theorem pushState_StackOK (tid : Nat) (args : List PyVal)
    (kwargs : List (String × PyVal)) (s : CallTracker) (h : StackOK s tid) :
    StackOK (pushState tid args kwargs s) tid := by
  intro j hj
  rw [pushState_callStacks, setStack_same] at hj
  rw [pushState_arena_length]
  rcases List.mem_append.mp hj with hj | hj
  · exact Nat.lt_succ_of_lt (h j hj)
  · have : j = s.arena.length := by simpa using hj
    omega

mutual

theorem callLog_spec (tid : Nat) (p : CallProg) (s : CallTracker) (h : StackOK s tid) :
    callLog tid p s = progLog s.arena.length ((s.callStacks tid).length) p := by
  match p with
  | CallProg.mk args kwargs subs ret =>
    rw [callLog, progLog,
      callLogs_spec tid subs (pushState tid args kwargs s)
        (pushState_StackOK tid args kwargs s h),
      pushState_arena_length, pushState_callStacks, setStack_same]
    simp

theorem callLogs_spec (tid : Nat) (ps : CallProgs) (s : CallTracker) (h : StackOK s tid) :
    callLogs tid ps s = progLogs s.arena.length ((s.callStacks tid).length) ps := by
  match ps with
  | CallProgs.nil => rw [callLogs, progLogs]
  | CallProgs.cons p rest =>
    rw [callLogs, progLogs, callLog_spec tid p s h,
      callLogs_spec tid rest (runProg tid p s).2 (runProg_StackOK tid p s h),
      runProg_arena_length tid p s h, runProg_callStacks tid p s h]

end

theorem sessionLog_spec (tid : Nat) (ps : List CallProg) (s : CallTracker)
    (he : s.callStacks tid = []) :
    sessionLog tid ps s = sessionProgLog s.arena.length ps := by
  induction ps generalizing s with
  | nil => rw [sessionLog, sessionProgLog]
  | cons p rest ih =>
    have h : StackOK s tid := StackOK_of_empty he
    rw [sessionLog, sessionProgLog, callLog_spec tid p s h, he,
      ih _ (by rw [runProg_callStacks tid p s h]; exact he),
      runProg_arena_length tid p s h]
    rfl

/-! ## Tree view of the arena

`PTree`/`PForest` describe the shape of a call forest by arena indices; the
predicate `agreesT` states that the arena's `caller`/`callees` links realize
that shape.  These are the bridge between the tracker's arena and structural
statements (consistency, depth, printing). -/

mutual
inductive PTree where
  | node : Nat → PForest → PTree
inductive PForest where
  | nil : PForest
  | cons : PTree → PForest → PForest
end

/-- The arena index at the root of a tree. -/
def rootId : PTree → Nat
  | PTree.node i _ => i

mutual

def idsT : PTree → List Nat
  | PTree.node i f => i :: idsF f

def idsF : PForest → List Nat
  | PForest.nil => []
  | PForest.cons c f => idsT c ++ idsF f

end

mutual

def sizeT : PTree → Nat
  | PTree.node _ f => 1 + sizeF f

def sizeF : PForest → Nat
  | PForest.nil => 0
  | PForest.cons c f => sizeT c + sizeF f

end

/-- Root indices of the trees of a forest. -/
def rootsF : PForest → List Nat
  | PForest.nil => []
  | PForest.cons c f => rootId c :: rootsF f

mutual

/-- The arena realizes the tree: the node's `callees` are exactly the roots
of its child forest, and recursively so for the children. -/
def agreesT (a : Arena) : PTree → Prop
  | PTree.node i f => (getNode a i).callees = rootsF f ∧ agreesF a i f

/-- The arena realizes the forest as the children of `parent`: each root's
`caller` is `parent` and each tree is realized. -/
def agreesF (a : Arena) (parent : Nat) : PForest → Prop
  | PForest.nil => True
  | PForest.cons c f =>
    (getNode a (rootId c)).caller = Option.some parent ∧ agreesT a c ∧ agreesF a parent f

end

mutual

/-- The tree shape a call program's records take when allocated depth-first
from index `base`. -/
def progTree (base : Nat) (p : CallProg) : PTree :=
  match p with
  | CallProg.mk _ _ subs _ => PTree.node base (progForest (base + 1) subs)

def progForest (base : Nat) (ps : CallProgs) : PForest :=
  match ps with
  | CallProgs.nil => PForest.nil
  | CallProgs.cons p rest =>
    PForest.cons (progTree base p) (progForest (base + szP p) rest)

end

/-- The forest of trees for a session's top-level calls. -/
def sessionTrees (base : Nat) : List CallProg → List PTree
  | [] => []
  | p :: ps => progTree base p :: sessionTrees (base + szP p) ps

theorem rootId_progTree (base : Nat) (p : CallProg) : rootId (progTree base p) = base := by
  match p with
  | CallProg.mk _ _ subs _ => rw [progTree, rootId]

theorem rootsF_progForest (base : Nat) (ps : CallProgs) :
    rootsF (progForest base ps) = childIds base ps := by
  match ps with
  | CallProgs.nil => rw [progForest, rootsF, childIds]
  | CallProgs.cons p rest =>
    rw [progForest, rootsF, childIds, rootId_progTree,
      rootsF_progForest (base + szP p) rest]

mutual

theorem idsT_progTree (p : CallProg) (base : Nat) :
    idsT (progTree base p) = List.range' base (szP p) := by
  match p with
  | CallProg.mk args kwargs subs ret =>
    rw [progTree, idsT, idsF_progForest subs (base + 1), szP,
      Nat.add_comm 1 (szPs subs)]
    rfl

theorem idsF_progForest (ps : CallProgs) (base : Nat) :
    idsF (progForest base ps) = List.range' base (szPs ps) := by
  match ps with
  | CallProgs.nil => rw [progForest, idsF, szPs]; rfl
  | CallProgs.cons p rest =>
    rw [progForest, idsF, idsT_progTree p base, idsF_progForest rest (base + szP p), szPs,
      Nat.add_comm (szP p) (szPs rest), List.range'_append_1]

end

mutual

theorem sizeT_progTree (p : CallProg) (base : Nat) : sizeT (progTree base p) = szP p := by
  match p with
  | CallProg.mk args kwargs subs ret =>
    rw [progTree, sizeT, sizeF_progForest subs (base + 1), szP]

theorem sizeF_progForest (ps : CallProgs) (base : Nat) :
    sizeF (progForest base ps) = szPs ps := by
  match ps with
  | CallProgs.nil => rw [progForest, sizeF, szPs]
  | CallProgs.cons p rest =>
    rw [progForest, sizeF, sizeT_progTree p base, sizeF_progForest rest (base + szP p), szPs]

end

theorem getNode_eq (A : Arena) (i : Nat) (r : RecursiveCall)
    (h : A.get? i = Option.some r) : getNode A i = r := by
  unfold getNode
  rw [h]
  rfl

/-- The first record of a flattened block is the block's own record; its
`caller` field is the caller passed in. -/
theorem flattenProg_caller (base : Nat) (c : Option Nat) (p : CallProg) :
    ∃ r, (flattenProg base c p).get? 0 = Option.some r ∧ r.caller = c := by
  match p with
  | CallProg.mk args kwargs subs ret =>
    have hr : (flattenProg base c (CallProg.mk args kwargs subs ret)).get? 0
        = Option.some
          { caller := c, callees := childIds (base + 1) subs,
            args := args, kwargs := kwargs, result := Option.some ret } := by
      rw [flattenProg]
      rfl
    exact ⟨_, hr, rfl⟩

mutual

theorem flatten_agreesT (p : CallProg) (base : Nat) (c : Option Nat) (A : Arena)
    (hA : ∀ j, j < szP p → A.get? (base + j) = (flattenProg base c p).get? j) :
    agreesT A (progTree base p) := by
  match p with
  | CallProg.mk args kwargs subs ret =>
    rw [progTree, agreesT]
    have h0 : A.get? base = Option.some
        { caller := c, callees := childIds (base + 1) subs, args := args,
          kwargs := kwargs, result := Option.some ret } := by
      have h := hA 0 (szP_pos _)
      rw [Nat.add_zero] at h
      rw [h, flattenProg]
      rfl
    constructor
    · rw [getNode_eq A base _ h0, rootsF_progForest]
    · apply flatten_agreesF subs (base + 1) base A
      intro j hj
      have h := hA (j + 1) (by rw [szP]; omega)
      rw [show base + (j + 1) = base + 1 + j by omega] at h
      rw [h, flattenProg]
      rfl

theorem flatten_agreesF (ps : CallProgs) (base parent : Nat) (A : Arena)
    (hA : ∀ j, j < szPs ps → A.get? (base + j) = (flattenProgs base parent ps).get? j) :
    agreesF A parent (progForest base ps) := by
  match ps with
  | CallProgs.nil =>
    rw [progForest, agreesF]
    trivial
  | CallProgs.cons p rest =>
    rw [progForest, agreesF]
    have hp : ∀ j, j < szP p →
        A.get? (base + j) = (flattenProg base (Option.some parent) p).get? j := by
      intro j hj
      have h := hA j (by rw [szPs]; omega)
      rw [h, flattenProgs, List.get?_append (by rw [flattenProg_length]; exact hj)]
    refine ⟨?_, flatten_agreesT p base (Option.some parent) A hp, ?_⟩
    · rw [rootId_progTree]
      have h0 := hp 0 (szP_pos p)
      rw [Nat.add_zero] at h0
      obtain ⟨r, hr, hc⟩ := flattenProg_caller base (Option.some parent) p
      rw [getNode_eq A base r (h0.trans hr), hc]
    · apply flatten_agreesF rest (base + szP p) parent A
      intro j hj
      have h := hA (szP p + j) (by rw [szPs]; omega)
      rw [show base + (szP p + j) = base + szP p + j by omega] at h
      rw [h, flattenProgs,
        List.get?_append_right (by rw [flattenProg_length]; omega)]
      rw [flattenProg_length]
      congr 1
      omega

end

/-- Each tree of the list is realized in the arena and its root has no
caller. -/
def rootAgrees (A : Arena) (ts : List PTree) : Prop :=
  ∀ t ∈ ts, agreesT A t ∧ (getNode A (rootId t)).caller = Option.none

theorem session_agrees (ps : List CallProg) : ∀ (pre : Arena),
    rootAgrees (pre ++ flattenRoots pre.length ps) (sessionTrees pre.length ps) := by
  induction ps with
  | nil =>
    intro pre t ht
    rw [sessionTrees] at ht
    cases ht
  | cons p rest ih =>
    intro pre t ht
    rw [sessionTrees] at ht
    rw [flattenRoots]
    have hassoc : pre ++ (flattenProg pre.length Option.none p
        ++ flattenRoots (pre.length + szP p) rest)
        = (pre ++ flattenProg pre.length Option.none p)
          ++ flattenRoots (pre.length + szP p) rest := by
      rw [List.append_assoc]
    have hlen : (pre ++ flattenProg pre.length Option.none p).length
        = pre.length + szP p := by
      rw [List.length_append, flattenProg_length]
    rcases List.mem_cons.mp ht with ht | ht
    · subst ht
      have hA : ∀ j, j < szP p →
          (pre ++ (flattenProg pre.length Option.none p
            ++ flattenRoots (pre.length + szP p) rest)).get? (pre.length + j)
          = (flattenProg pre.length Option.none p).get? j := by
        intro j hj
        rw [List.get?_append_right (by omega)]
        rw [show pre.length + j - pre.length = j by omega]
        rw [List.get?_append (by rw [flattenProg_length]; exact hj)]
      constructor
      · exact flatten_agreesT p pre.length Option.none _ hA
      · rw [rootId_progTree]
        have h0 := hA 0 (szP_pos p)
        rw [Nat.add_zero] at h0
        obtain ⟨r, hr, hc⟩ := flattenProg_caller pre.length Option.none p
        rw [getNode_eq _ pre.length r (h0.trans hr), hc]
    · have := ih (pre ++ flattenProg pre.length Option.none p) t
        (by rw [hlen]; exact ht)
      rw [hlen] at this
      rw [hassoc]
      exact this

theorem agrees_roots_caller (A : Arena) (parent : Nat) (f : PForest)
    (hF : agreesF A parent f) :
    ∀ r ∈ rootsF f, (getNode A r).caller = Option.some parent := by
  match f with
  | PForest.nil =>
    intro r hr
    rw [rootsF] at hr
    cases hr
  | PForest.cons c f2 =>
    rw [agreesF] at hF
    intro r hr
    rw [rootsF] at hr
    rcases List.mem_cons.mp hr with hr | hr
    · subst hr
      exact hF.1
    · exact agrees_roots_caller A parent f2 hF.2.2 r hr

mutual

theorem agrees_cc_T (A : Arena) (t : PTree) (hT : agreesT A t) :
    ∀ i, i ∈ idsT t → ∀ j, j ∈ (getNode A i).callees →
      (getNode A j).caller = Option.some i := by
  match t with
  | PTree.node i0 f =>
    rw [agreesT] at hT
    intro i hi j hj
    rw [idsT] at hi
    rcases List.mem_cons.mp hi with hi | hi
    · subst hi
      rw [hT.1] at hj
      exact agrees_roots_caller A i f hT.2 j hj
    · exact agrees_cc_F A i0 f hT.2 i hi j hj

theorem agrees_cc_F (A : Arena) (parent : Nat) (f : PForest) (hF : agreesF A parent f) :
    ∀ i, i ∈ idsF f → ∀ j, j ∈ (getNode A i).callees →
      (getNode A j).caller = Option.some i := by
  match f with
  | PForest.nil =>
    intro i hi
    rw [idsF] at hi
    cases hi
  | PForest.cons c f2 =>
    rw [agreesF] at hF
    intro i hi j hj
    rw [idsF] at hi
    rcases List.mem_append.mp hi with hi | hi
    · exact agrees_cc_T A c hF.2.1 i hi j hj
    · exact agrees_cc_F A parent f2 hF.2.2 i hi j hj

end

mutual

theorem agrees_st_T (A : Arena) (t : PTree) (hT : agreesT A t) :
    ∀ j, j ∈ idsT t → j = rootId t ∨
      ∃ pp, j ∈ (getNode A pp).callees ∧ (getNode A j).caller = Option.some pp := by
  match t with
  | PTree.node i0 f =>
    rw [agreesT] at hT
    intro j hj
    rw [idsT] at hj
    rcases List.mem_cons.mp hj with hj | hj
    · subst hj
      left
      rw [rootId]
    · right
      apply agrees_st_F A i0 f hT.2 _ j hj
      intro r hr
      rw [hT.1]
      exact hr

theorem agrees_st_F (A : Arena) (parent : Nat) (f : PForest) (hF : agreesF A parent f)
    (hroots : ∀ r, r ∈ rootsF f → r ∈ (getNode A parent).callees) :
    ∀ j, j ∈ idsF f →
      ∃ pp, j ∈ (getNode A pp).callees ∧ (getNode A j).caller = Option.some pp := by
  match f with
  | PForest.nil =>
    intro j hj
    rw [idsF] at hj
    cases hj
  | PForest.cons c f2 =>
    rw [agreesF] at hF
    intro j hj
    rw [idsF] at hj
    rcases List.mem_append.mp hj with hj | hj
    · rcases agrees_st_T A c hF.2.1 j hj with hj2 | hj2
      · subst hj2
        refine ⟨parent, ?_, hF.1⟩
        apply hroots
        rw [rootsF]
        exact List.mem_cons_self _ _
      · exact hj2
    · apply agrees_st_F A parent f2 hF.2.2 _ j hj
      intro r hr
      apply hroots
      rw [rootsF]
      exact List.mem_cons_of_mem _ hr

end

/-- The caller chain from record `j` reaches a root in `d` steps: the depth
of `j` in the forest along `caller` links. -/
inductive CallerChain (a : Arena) : Nat → Nat → Prop where
  | root : ∀ j, (getNode a j).caller = Option.none → CallerChain a j 0
  | child : ∀ j p d, (getNode a j).caller = Option.some p → CallerChain a p d →
      CallerChain a j (d + 1)

mutual

theorem progLog_chainT (A : Arena) (p : CallProg) (base d : Nat)
    (hT : agreesT A (progTree base p)) (hbase : CallerChain A base d) :
    ∀ jd ∈ progLog base d p, CallerChain A jd.1 jd.2 := by
  match p with
  | CallProg.mk args kwargs subs ret =>
    intro jd hjd
    rw [progLog] at hjd
    rcases List.mem_cons.mp hjd with hjd | hjd
    · subst hjd
      exact hbase
    · rw [progTree, agreesT] at hT
      exact progLog_chainF A subs (base + 1) base d hT.2 hbase jd hjd

theorem progLog_chainF (A : Arena) (ps : CallProgs) (base parent d : Nat)
    (hF : agreesF A parent (progForest base ps)) (hpar : CallerChain A parent d) :
    ∀ jd ∈ progLogs base (d + 1) ps, CallerChain A jd.1 jd.2 := by
  match ps with
  | CallProgs.nil =>
    intro jd hjd
    rw [progLogs] at hjd
    cases hjd
  | CallProgs.cons p rest =>
    rw [progForest, agreesF] at hF
    intro jd hjd
    rw [progLogs] at hjd
    rcases List.mem_append.mp hjd with hjd | hjd
    · apply progLog_chainT A p base (d + 1) ?_ ?_ jd hjd
      · exact hF.2.1
      · refine CallerChain.child base parent d ?_ hpar
        have := hF.1
        rw [rootId_progTree] at this
        exact this
    · exact progLog_chainF A rest (base + szP p) parent d hF.2.2 hpar jd hjd

end

theorem flattenRoots_length (ps : List CallProg) : ∀ base : Nat,
    (flattenRoots base ps).length = (ps.map szP).sum := by
  induction ps with
  | nil => intro base; rfl
  | cons p rest ih =>
    intro base
    rw [flattenRoots, List.length_append, flattenProg_length, ih (base + szP p)]
    simp

theorem rootIdsOf_eq_map (ps : List CallProg) : ∀ base : Nat,
    rootIdsOf base ps = (sessionTrees base ps).map rootId := by
  induction ps with
  | nil => intro base; rfl
  | cons p rest ih =>
    intro base
    rw [rootIdsOf, sessionTrees, List.map_cons, rootId_progTree, ih (base + szP p)]

theorem sessionTrees_ids (ps : List CallProg) : ∀ base : Nat,
    ((sessionTrees base ps).map idsT).flatten = List.range' base ((ps.map szP).sum) := by
  induction ps with
  | nil => intro base; rfl
  | cons p rest ih =>
    intro base
    rw [sessionTrees, List.map_cons,
      show ((idsT (progTree base p) :: (sessionTrees (base + szP p) rest).map idsT).flatten
        = idsT (progTree base p) ++ ((sessionTrees (base + szP p) rest).map idsT).flatten)
        from rfl,
      idsT_progTree, ih (base + szP p)]
    rw [List.map_cons, List.sum_cons, Nat.add_comm (szP p) ((rest.map szP).sum),
      List.range'_append_1]

theorem sessionProgLog_chain (ps : List CallProg) : ∀ (A : Arena) (base : Nat),
    rootAgrees A (sessionTrees base ps) →
    ∀ jd ∈ sessionProgLog base ps, CallerChain A jd.1 jd.2 := by
  induction ps with
  | nil =>
    intro A base _ jd hjd
    rw [sessionProgLog] at hjd
    cases hjd
  | cons p rest ih =>
    intro A base hagree jd hjd
    have hhead := hagree (progTree base p) (by rw [sessionTrees]; exact List.mem_cons_self _ _)
    rw [sessionProgLog] at hjd
    rcases List.mem_append.mp hjd with hjd | hjd
    · apply progLog_chainT A p base 0 hhead.1 _ jd hjd
      apply CallerChain.root
      have := hhead.2
      rw [rootId_progTree] at this
      exact this
    · apply ih A (base + szP p) _ jd hjd
      intro t ht
      exact hagree t (by rw [sessionTrees]; exact List.mem_cons_of_mem _ ht)

/-- C3: running any sequence of properly nested same-thread invocations that
all return normally on a fresh tracker yields a forest with exactly one record
per invocation; roots (calls begun with an empty stack) are appended to
`start_calls` in order; a record `j` is in the `callees` of `i` exactly when
`j`'s `caller` is `i` (each non-root's caller is the parent whose callees
list contains it); every root record has no caller; and the creation log
shows that each call's record depth along `caller` links equals the number of
tracked calls active on the thread when the call began. -/
theorem tracker_builds_call_forest (tid : Nat) (ps : List CallProg) :
    (runSession tid ps initCallTracker).arena.length = (ps.map szP).sum ∧
    (runSession tid ps initCallTracker).callStacks tid = [] ∧
    (runSession tid ps initCallTracker).startCalls = rootIdsOf 0 ps ∧
    (∀ r ∈ (runSession tid ps initCallTracker).startCalls,
      (getNode (runSession tid ps initCallTracker).arena r).caller = Option.none) ∧
    (∀ i j, i < (runSession tid ps initCallTracker).arena.length →
      j < (runSession tid ps initCallTracker).arena.length →
      (j ∈ (getNode (runSession tid ps initCallTracker).arena i).callees ↔
        (getNode (runSession tid ps initCallTracker).arena j).caller = Option.some i)) ∧
    sessionLog tid ps initCallTracker = sessionProgLog 0 ps ∧
    (∀ jd ∈ sessionLog tid ps initCallTracker,
      CallerChain (runSession tid ps initCallTracker).arena jd.1 jd.2) := by
  have hrun := runSession_spec tid ps initCallTracker rfl
  have hagree : rootAgrees (flattenRoots 0 ps) (sessionTrees 0 ps) := by
    have := session_agrees ps []
    simpa using this
  have harena : (runSession tid ps initCallTracker).arena = flattenRoots 0 ps := by
    rw [hrun]
    simp [initCallTracker]
  have hids : ∀ j, j < (flattenRoots 0 ps).length →
      ∃ t ∈ sessionTrees 0 ps, j ∈ idsT t := by
    intro j hj
    rw [flattenRoots_length] at hj
    have hmem : j ∈ ((sessionTrees 0 ps).map idsT).flatten := by
      rw [sessionTrees_ids]
      rw [List.mem_range'_1]
      omega
    rcases List.mem_flatten.mp hmem with ⟨l, hl, hjl⟩
    rcases List.mem_map.mp hl with ⟨t, ht, rfl⟩
    exact ⟨t, ht, hjl⟩
  refine ⟨?_, ?_, ?_, ?_, ?_, ?_, ?_⟩
  · rw [harena, flattenRoots_length]
  · rw [hrun]
    rfl
  · rw [hrun]
    simp [initCallTracker]
  · intro r hr
    rw [hrun] at hr
    rw [harena]
    have hr2 : r ∈ rootIdsOf 0 ps := by simpa [initCallTracker] using hr
    rw [rootIdsOf_eq_map] at hr2
    rcases List.mem_map.mp hr2 with ⟨t, ht, rfl⟩
    exact (hagree t ht).2
  · intro i j hi hj
    rw [harena] at hi hj ⊢
    constructor
    · intro hmem
      rcases hids i hi with ⟨t, ht, hit⟩
      exact agrees_cc_T _ t (hagree t ht).1 i hit j hmem
    · intro hcall
      rcases hids j hj with ⟨t, ht, hjt⟩
      rcases agrees_st_T _ t (hagree t ht).1 j hjt with hroot | ⟨pp, hpp1, hpp2⟩
      · exfalso
        have := (hagree t ht).2
        rw [← hroot] at this
        rw [this] at hcall
        cases hcall
      · have : pp = i := by
          rw [hpp2] at hcall
          exact Option.some.inj hcall
        rw [← this]
        exact hpp1
  · exact sessionLog_spec tid ps initCallTracker rfl
  · intro jd hjd
    rw [sessionLog_spec tid ps initCallTracker rfl] at hjd
    rw [harena]
    exact sessionProgLog_chain ps (flattenRoots 0 ps) 0 hagree jd hjd

theorem modifyAt_get? (a : Arena) (i : Nat) (f : RecursiveCall → RecursiveCall) :
    ∀ j, (modifyAt a i f).get? j = if j = i then (a.get? i).map f else a.get? j := by
  induction a generalizing i with
  | nil =>
    intro j
    by_cases h : j = i <;> simp [modifyAt, h]
  | cons x xs ih =>
    intro j
    cases i with
    | zero =>
      cases j with
      | zero => simp [modifyAt]
      | succ jj => simp [modifyAt]
    | succ ii =>
      cases j with
      | zero => simp [modifyAt]
      | succ jj =>
        have h1 : (modifyAt (x :: xs) (Nat.succ ii) f).get? (Nat.succ jj)
            = (modifyAt xs ii f).get? jj := rfl
        have h2 : (x :: xs).get? (Nat.succ ii) = xs.get? ii := rfl
        have h3 : (x :: xs).get? (Nat.succ jj) = xs.get? jj := rfl
        rw [h1, h2, h3, ih ii jj]
        by_cases hjj : jj = ii
        · simp [hjj]
        · simp [hjj]

theorem getNode_append_left (A B : Arena) (i : Nat) (h : i < A.length) :
    getNode (A ++ B) i = getNode A i := by
  unfold getNode
  rw [List.get?_append h]

/-- Concatenation of bodies of tracked sub-calls. -/
def appendProgs : CallProgs → CallProgs → CallProgs
  | CallProgs.nil, qs => qs
  | CallProgs.cons p ps, qs => CallProgs.cons p (appendProgs ps qs)

/-- The record the wrapper pushes for the current call, as seen by the body. -/
theorem pushState_arena (tid : Nat) (args : List PyVal)
    (kwargs : List (String × PyVal)) (s : CallTracker) (h : StackOK s tid) :
    (pushState tid args kwargs s).arena =
      (match (s.callStacks tid).getLast? with
       | Option.none => s.arena
       | Option.some top =>
         modifyAt s.arena top
           (fun r => { r with callees := r.callees ++ [s.arena.length] }))
      ++ [{ mkRecursiveCall args kwargs with caller := (s.callStacks tid).getLast? }] := by
  cases hL : (s.callStacks tid).getLast? with
  | none =>
    simp only [pushState, hL]
    rfl
  | some top =>
    simp only [pushState, hL]
    exact addCallee_push s.arena top (mkRecursiveCall args kwargs)
      (h top (List.mem_of_mem_getLast? (by rw [hL]; rfl)))

/-- The head record of a flattened block carries the call's return value. -/
theorem flattenProg_head_result (base : Nat) (c : Option Nat) (p : CallProg) :
    ∃ r, (flattenProg base c p).get? 0 = Option.some r ∧ r.result = Option.some p.ret := by
  match p with
  | CallProg.mk args kwargs subs ret =>
    have hr : (flattenProg base c (CallProg.mk args kwargs subs ret)).get? 0
        = Option.some
          { caller := c, callees := childIds (base + 1) subs,
            args := args, kwargs := kwargs, result := Option.some ret } := by
      rw [flattenProg]
      rfl
    exact ⟨_, hr, rfl⟩

/-- C4: a record's `result` holds the sentinel (`UNINITIALIZED`, modelled as
`Option.none`, distinct from `Option.some v` for every value `v` including
Python `None`) from its creation, through the whole execution of the wrapped
call's body (any prefix `subs1` of its tracked sub-calls), until the call
returns; at the moment of return it becomes exactly the returned value; and no
later tracked invocation ever changes the `result` of an existing record. -/
theorem result_lifecycle (tid : Nat) (args : List PyVal)
    (kwargs : List (String × PyVal)) (subs1 subs2 : CallProgs) (ret : PyVal)
    (s : CallTracker) (h : StackOK s tid) :
    (mkRecursiveCall args kwargs).result = Option.none ∧
    (∀ v : PyVal, (mkRecursiveCall args kwargs).result ≠ Option.some v) ∧
    (getNode ((runProgs tid subs1 ret (pushState tid args kwargs s)).2).arena
      s.arena.length).result = Option.none ∧
    (getNode ((runProg tid (CallProg.mk args kwargs (appendProgs subs1 subs2) ret) s).2).arena
      s.arena.length).result = Option.some ret ∧
    (∀ (q : CallProg) (s2 : CallTracker), StackOK s2 tid → ∀ j, j < s2.arena.length →
      (getNode ((runProg tid q s2).2).arena j).result = (getNode s2.arena j).result) := by
  have hstk := pushState_callStacks tid args kwargs s
  have hlast : ((pushState tid args kwargs s).callStacks tid).getLast?
      = Option.some s.arena.length := by
    rw [hstk, setStack_same, List.getLast?_concat]
  have hpok := pushState_StackOK tid args kwargs s h
  have hpref : ∀ (top : Nat),
      (match (s.callStacks tid).getLast? with
       | Option.none => s.arena
       | Option.some top =>
         modifyAt s.arena top
           (fun r => { r with callees := r.callees ++ [s.arena.length] })).length
      = s.arena.length := by
    intro top
    cases (s.callStacks tid).getLast? <;> simp [modifyAt_length]
  refine ⟨rfl, ?_, ?_, ?_, ?_⟩
  · intro v hv
    exact Option.noConfusion hv
  · -- sentinel during the body
    rw [runProgs_spec tid subs1 ret _ s.arena.length hpok hlast]
    dsimp only
    rw [getNode_append_left _ _ _
      (by rw [modifyAt_length, pushState_arena_length]; omega)]
    unfold getNode
    rw [modifyAt_get?, if_pos rfl, pushState_arena tid args kwargs s h,
      List.get?_append_right (by rw [hpref 0]), hpref 0, Nat.sub_self]
    rfl
  · -- the returned value at the moment of return
    rw [runProg_spec tid (CallProg.mk args kwargs (appendProgs subs1 subs2) ret) s h]
    dsimp only
    obtain ⟨r, hr, hres⟩ := flattenProg_head_result s.arena.length
      ((s.callStacks tid).getLast?) (CallProg.mk args kwargs (appendProgs subs1 subs2) ret)
    unfold getNode
    rw [List.get?_append_right (by rw [hpref 0]), hpref 0, Nat.sub_self, hr]
    exact hres
  · -- later invocations do not change existing results
    intro q s2 h2 j hj
    rw [runProg_spec tid q s2 h2]
    dsimp only
    have hPRE : (match (s2.callStacks tid).getLast? with
       | Option.none => s2.arena
       | Option.some top =>
         modifyAt s2.arena top
           (fun r => { r with callees := r.callees ++ [s2.arena.length] })).length
        = s2.arena.length := by
      cases (s2.callStacks tid).getLast? <;> simp [modifyAt_length]
    rw [getNode_append_left _ _ _ (by rw [hPRE]; omega)]
    cases hL : (s2.callStacks tid).getLast? with
    | none => rfl
    | some top =>
      unfold getNode
      rw [modifyAt_get?]
      by_cases hjt : j = top
      · subst hjt
        rw [if_pos rfl]
        cases harr : s2.arena.get? j with
        | none => rfl
        | some r => rfl
      · rw [if_neg hjt]

/-- Witness for C4 at a concrete input: a call with no sub-calls returning
Python `None` on a fresh tracker. -/
theorem result_lifecycle_witness :
    StackOK initCallTracker 0 ∧
    ((mkRecursiveCall [] []).result = Option.none ∧
     (∀ v : PyVal, (mkRecursiveCall [] []).result ≠ Option.some v) ∧
     (getNode ((runProgs 0 CallProgs.nil PyVal.none
        (pushState 0 [] [] initCallTracker)).2).arena 0).result = Option.none ∧
     (getNode ((runProg 0 (CallProg.mk [] [] (appendProgs CallProgs.nil CallProgs.nil)
        PyVal.none) initCallTracker).2).arena 0).result = Option.some PyVal.none ∧
     (∀ (q : CallProg) (s2 : CallTracker), StackOK s2 0 → ∀ j, j < s2.arena.length →
       (getNode ((runProg 0 q s2).2).arena j).result = (getNode s2.arena j).result)) :=
  ⟨StackOK_of_empty rfl,
   result_lifecycle 0 [] [] CallProgs.nil CallProgs.nil PyVal.none initCallTracker
     (StackOK_of_empty rfl)⟩

/-! ## C8: contract violations are not checked -/

/-- C8 amended: `add_callee` performs no precondition check — attaching a
record whose `caller` is already set completes silently, appending the record
to the new parent's `callees` and overwriting its `caller`, while the old
parent's `callees` still contain it; and the wrapper's pop step performs no
check that the popped record is the one pushed by the returning call: it pops
whichever record is topmost and stores the result there. -/
theorem addCallee_unchecked (a : Arena) (p q c : Nat)
    (hq : q < a.length) (hc : c < a.length) (hpq : p ≠ q) (hpc : p ≠ c)
    (hqc : q ≠ c)
    (hcaller : (getNode a c).caller = Option.some p)
    (hmem : c ∈ (getNode a p).callees) :
    (getNode (addCallee a q c) c).caller = Option.some q ∧
    c ∈ (getNode (addCallee a q c) p).callees ∧
    c ∈ (getNode (addCallee a q c) q).callees ∧
    (getNode (addCallee a q c) q).callees = (getNode a q).callees ++ [c] ∧
    (∀ (tid : Nat) (args : List PyVal) (kwargs : List (String × PyVal))
       (body : Body) (s s4 : CallTracker) (v : PyVal) (popped : Nat),
      body (pushState tid args kwargs s) = (Except.ok v, s4) →
      (s4.callStacks tid).getLast? = Option.some popped →
      wrapper tid args kwargs body s = (Except.ok v,
        { s4 with
          callStacks := setStack s4.callStacks tid ((s4.callStacks tid).dropLast),
          arena := modifyAt s4.arena popped
            (fun r => { r with result := Option.some v }) })) := by
  have hgetq : ∀ j, j ≠ c →
      (addCallee a q c).get? j = (modifyAt a q
        (fun r => { r with callees := r.callees ++ [c] })).get? j := by
    intro j hj
    unfold addCallee
    rw [modifyAt_get?, if_neg hj]
  have hcval : ∃ rc, a.get? c = Option.some rc := by
    cases harr : a.get? c with
    | none =>
      exfalso
      rw [List.get?_eq_none] at harr
      omega
    | some rc => exact ⟨rc, rfl⟩
  have hqval : ∃ rq, a.get? q = Option.some rq := by
    cases harr : a.get? q with
    | none =>
      exfalso
      rw [List.get?_eq_none] at harr
      omega
    | some rq => exact ⟨rq, rfl⟩
  obtain ⟨rc, hrc⟩ := hcval
  obtain ⟨rq, hrq⟩ := hqval
  refine ⟨?_, ?_, ?_, ?_, ?_⟩
  · unfold getNode addCallee
    rw [modifyAt_get?, if_pos rfl, modifyAt_get?, if_neg (Ne.symm hqc), hrc]
    rfl
  · have h1 : getNode (addCallee a q c) p = getNode a p := by
      unfold getNode
      rw [hgetq p hpc, modifyAt_get?, if_neg hpq]
    rw [h1]
    exact hmem
  · unfold getNode
    rw [hgetq q hqc, modifyAt_get?, if_pos rfl, hrq]
    show c ∈ rq.callees ++ [c]
    simp
  · unfold getNode
    rw [hgetq q hqc, modifyAt_get?, if_pos rfl, hrq]
    rfl
  · intro tid args kwargs body s s4 v popped hbody hpop
    rw [wrapper_eq_pushState]
    simp only [hbody, hpop]

/-- A three-record arena in which record 2 is already attached as a callee of
record 0. -/
def arenaC8 : Arena :=
  [{ caller := Option.none, callees := [2], args := [], kwargs := [],
     result := Option.none },
   { caller := Option.none, callees := [], args := [], kwargs := [],
     result := Option.none },
   { caller := Option.some 0, callees := [], args := [], kwargs := [],
     result := Option.none }]

/-- C8 counterexample: attaching the already-attached record 2 to record 1 via
`add_callee` does not signal any failure — the operation completes, leaving
record 2 in the `callees` of both record 0 and record 1 with its `caller`
silently overwritten. -/
theorem addCallee_attached_completes :
    (getNode arenaC8 2).caller = Option.some 0 ∧
    2 ∈ (getNode arenaC8 0).callees ∧
    addCallee arenaC8 1 2 =
      [{ caller := Option.none, callees := [2], args := [], kwargs := [],
         result := Option.none },
       { caller := Option.none, callees := [2], args := [], kwargs := [],
         result := Option.none },
       { caller := Option.some 1, callees := [], args := [], kwargs := [],
         result := Option.none }] ∧
    2 ∈ (getNode (addCallee arenaC8 1 2) 0).callees ∧
    2 ∈ (getNode (addCallee arenaC8 1 2) 1).callees ∧
    (getNode (addCallee arenaC8 1 2) 2).caller = Option.some 1 := by
  decide

/-- Witness for C8's amended theorem on `arenaC8`. -/
theorem addCallee_unchecked_witness :
    (1 < arenaC8.length ∧ 2 < arenaC8.length ∧ (0 : Nat) ≠ 1 ∧ (0 : Nat) ≠ 2 ∧
     (1 : Nat) ≠ 2 ∧ (getNode arenaC8 2).caller = Option.some 0 ∧
     2 ∈ (getNode arenaC8 0).callees) ∧
    (getNode (addCallee arenaC8 1 2) 2).caller = Option.some 1 ∧
    2 ∈ (getNode (addCallee arenaC8 1 2) 0).callees := by
  refine ⟨by decide, ?_, ?_⟩
  · exact (addCallee_unchecked arenaC8 0 1 2 (by decide) (by decide) (by decide)
      (by decide) (by decide) (by decide) (by decide)).1
  · exact (addCallee_unchecked arenaC8 0 1 2 (by decide) (by decide) (by decide)
      (by decide) (by decide) (by decide) (by decide)).2.1

/-! ## `pretty_print`: the iterative tree printer

`RecursiveCall.pretty_print` walks the tree iteratively: down through
per-node child iterators (`callee_iterators`, a dict keyed by object
identity, here by arena index) and back up through `caller` links, printing
each freshly visited node's block.  One `ppStepAt` is one iteration of the
`while current is not None` loop. -/

/-- `RecursiveCall._indent_from_depth`: `indent * depth * 2` spaces (zero at
depth 0), plus one more `indent` when `hanging`; Python's `" " * n` yields the
empty string for negative `n`, hence the `Int.toNat` clamp. -/
def indentFromDepth (depth : Int) (indent : Nat) (hanging : Bool) : String :=
  let indentWidth : Int := if depth = 0 then 0 else (indent : Int) * depth * 2
  let indentWidth : Int := indentWidth + (if hanging then (indent : Int) else 0)
  String.mk (List.replicate indentWidth.toNat ' ')

/-- The lines printed for a freshly visited node (lines 69-83 of the source):
header, `result=`, `args=`, `kwargs=`, then `callees=[]` or `callees=[`. -/
def printBlock (indent : Nat) (depth : Int) (nd : RecursiveCall) : List String :=
  [indentFromDepth depth indent false ++ "RecursiveCall",
   indentFromDepth depth indent true ++ "result=" ++ reprResult nd.result,
   indentFromDepth depth indent true ++ "args=" ++ reprArgs nd.args,
   indentFromDepth depth indent true ++ "kwargs=" ++ prettifyKwargsRepr nd.kwargs ++ ")",
   if nd.callees = [] then indentFromDepth depth indent true ++ "callees=[]"
   else indentFromDepth depth indent true ++ "callees=["]

/-- The closing marker printed when a node with callees is exhausted
(lines 88-91 of the source): at the hanging indent of the node's depth. -/
def closeLine (indent : Nat) (depth : Int) : String :=
  indentFromDepth depth indent true ++ "],"

/-- The loop state of `pretty_print`: the `current` node (`Option` for the
`while current is not None` test), the running `depth`, the
`callee_iterators` dict (arena index to remaining children), and the lines
printed so far. -/
structure PPState where
  current : Option Nat
  depth : Int
  iters : Nat → Option (List Nat)
  out : List String

/-- One iteration of the `while` loop, with `current = c`: print the block
and start the child iterator if the node is fresh, then advance the iterator
(descend into the next child) or, on `StopIteration`, print the closing
marker when the node has callees and move up to `caller`. -/
def ppStepAt (a : Arena) (indent : Nat) (st : PPState) (c : Nat) : PPState :=
  let nd := getNode a c
  let st1 : PPState :=
    match st.iters c with
    | Option.some _ => st
    | Option.none =>
      { st with
        iters := fun j => if j = c then Option.some nd.callees else st.iters j,
        out := st.out ++ printBlock indent st.depth nd }
  match st1.iters c with
  | Option.some (x :: xs) =>
    { st1 with
      iters := fun j => if j = c then Option.some xs else st1.iters j,
      current := Option.some x, depth := st1.depth + 1 }
  | _ =>
    { st1 with
      out := st1.out ++ (if nd.callees = [] then [] else [closeLine indent st1.depth]),
      depth := st1.depth - 1, current := nd.caller }

/-- The `while current is not None` loop, with explicit fuel. -/
def ppLoop (a : Arena) (indent : Nat) : Nat → PPState → PPState
  | 0, st => st
  | Nat.succ n, st =>
    match st.current with
    | Option.none => st
    | Option.some c => ppLoop a indent n (ppStepAt a indent st c)

/-- The state at entry of `pretty_print`: `current = self`, `depth = 0`,
empty iterator dict, nothing printed. -/
def initPP (start : Nat) : PPState :=
  { current := Option.some start, depth := 0, iters := fun _ => Option.none, out := [] }

/-- The output of `RecursiveCall.pretty_print` called on the record `start`,
given enough fuel for the loop to exit. -/
def prettyPrint (a : Arena) (start : Nat) (indent : Nat) (fuel : Nat) : List String :=
  (ppLoop a indent fuel (initPP start)).out

theorem ppLoop_zero (a : Arena) (indent : Nat) (st : PPState) :
    ppLoop a indent 0 st = st := rfl

theorem ppLoop_succ (a : Arena) (indent : Nat) (n : Nat) (st : PPState) (c : Nat)
    (hc : st.current = Option.some c) :
    ppLoop a indent (Nat.succ n) st = ppLoop a indent n (ppStepAt a indent st c) := by
  rw [ppLoop, hc]

theorem ppLoop_done (a : Arena) (indent : Nat) (st : PPState)
    (hc : st.current = Option.none) : ∀ n, ppLoop a indent n st = st := by
  intro n
  cases n with
  | zero => rfl
  | succ m => rw [ppLoop, hc]

theorem ppStepAt_fresh_cons (a : Arena) (indent : Nat) (st : PPState) (c x : Nat)
    (xs : List Nat) (hc : st.iters c = Option.none)
    (hcal : (getNode a c).callees = x :: xs) :
    ppStepAt a indent st c =
      { current := Option.some x, depth := st.depth + 1,
        iters := fun j => if j = c then Option.some xs else st.iters j,
        out := st.out ++ printBlock indent st.depth (getNode a c) } := by
  have h2 : (fun j => if j = c then Option.some xs
      else if j = c then Option.some (x :: xs : List Nat) else st.iters j)
      = fun j => if j = c then Option.some xs else st.iters j := by
    funext j
    by_cases hj : j = c <;> simp [hj]
  unfold ppStepAt
  rw [hc]
  simp only [hcal, eq_self_iff_true, if_true, h2]

theorem ppStepAt_fresh_nil (a : Arena) (indent : Nat) (st : PPState) (c : Nat)
    (hc : st.iters c = Option.none) (hcal : (getNode a c).callees = []) :
    ppStepAt a indent st c =
      { current := (getNode a c).caller, depth := st.depth - 1,
        iters := fun j => if j = c then Option.some [] else st.iters j,
        out := st.out ++ printBlock indent st.depth (getNode a c) } := by
  unfold ppStepAt
  rw [hc]
  simp only [hcal, eq_self_iff_true, if_true, List.append_nil]

theorem ppStepAt_seen_cons (a : Arena) (indent : Nat) (st : PPState) (c x : Nat)
    (xs : List Nat) (hc : st.iters c = Option.some (x :: xs)) :
    ppStepAt a indent st c =
      { current := Option.some x, depth := st.depth + 1,
        iters := fun j => if j = c then Option.some xs else st.iters j,
        out := st.out } := by
  unfold ppStepAt
  simp only [hc]

theorem ppStepAt_seen_nil (a : Arena) (indent : Nat) (st : PPState) (c : Nat)
    (hc : st.iters c = Option.some []) :
    ppStepAt a indent st c =
      { current := (getNode a c).caller, depth := st.depth - 1,
        iters := st.iters,
        out := st.out ++ (if (getNode a c).callees = [] then []
          else [closeLine indent st.depth]) } := by
  unfold ppStepAt
  simp only [hc]

mutual

/-- The rendering contract of the spec (4.1): per node a header line, then
`result=`, `args=`, `kwargs=` fields each on their own line one indent level
deeper, then, when the node has children, an opening marker, the children's
full renderings in stored order one nesting level deeper, and a closing
marker; when it has none, an explicit `callees=[]` marker instead. -/
def specRenderT (a : Arena) (w : Nat) (d : Int) : PTree → List String
  | PTree.node i f =>
    (indentFromDepth d w false ++ "RecursiveCall")
    :: (indentFromDepth d w true ++ "result=" ++ reprResult (getNode a i).result)
    :: (indentFromDepth d w true ++ "args=" ++ reprArgs (getNode a i).args)
    :: (indentFromDepth d w true ++ "kwargs=" ++ prettifyKwargsRepr (getNode a i).kwargs ++ ")")
    :: (match f with
        | PForest.nil => [indentFromDepth d w true ++ "callees=[]"]
        | PForest.cons c f2 =>
          (indentFromDepth d w true ++ "callees=[")
            :: (specRenderF a w (d + 1) (PForest.cons c f2)
              ++ [indentFromDepth d w true ++ "],"]))

/-- Children are rendered in their stored order. -/
def specRenderF (a : Arena) (w : Nat) (d : Int) : PForest → List String
  | PForest.nil => []
  | PForest.cons c f => specRenderT a w d c ++ specRenderF a w d f

end

theorem rootsF_eq_nil_iff (f : PForest) : rootsF f = [] ↔ f = PForest.nil := by
  cases f with
  | nil => simp [rootsF]
  | cons c f2 => simp [rootsF]

/-- The machine's per-node output assembles into the spec rendering. -/
theorem specRenderT_eq (a : Arena) (w : Nat) (d : Int) (i : Nat) (f : PForest)
    (h : (getNode a i).callees = rootsF f) :
    specRenderT a w d (PTree.node i f)
      = printBlock w d (getNode a i)
        ++ (match f with
            | PForest.nil => []
            | PForest.cons c f2 =>
              specRenderF a w (d + 1) (PForest.cons c f2) ++ [closeLine w d]) := by
  cases f with
  | nil =>
    rw [rootsF] at h
    simp [specRenderT, printBlock, h, closeLine]
  | cons c f2 =>
    rw [rootsF] at h
    simp [specRenderT, printBlock, h, closeLine]

mutual

/-- Loop iterations `pretty_print` spends on the subtree of a fresh node. -/
def stepsT : PTree → Nat
  | PTree.node _ PForest.nil => 1
  | PTree.node _ (PForest.cons c f) => stepsT c + stepsF f + 1

/-- Loop iterations spent on the remaining children `f` of an exhausted-ahead
parent, including the parent's own closing step. -/
def stepsF : PForest → Nat
  | PForest.nil => 1
  | PForest.cons c f => stepsT c + stepsF f + 1

end


mutual

theorem ppLoop_tree (a : Arena) (w : Nat) (t : PTree) (hT : agreesT a t)
    (hnodup : (idsT t).Nodup) (iters : Nat → Option (List Nat))
    (hfresh : ∀ j ∈ idsT t, iters j = Option.none) (k : Nat) (d : Int)
    (out : List String) :
    ppLoop a w (stepsT t + k)
      { current := Option.some (rootId t), depth := d, iters := iters, out := out }
    = ppLoop a w k
      { current := (getNode a (rootId t)).caller, depth := d - 1,
        iters := fun j => if j ∈ idsT t then Option.some [] else iters j,
        out := out ++ specRenderT a w d t } := by
  match t with
  | PTree.node i PForest.nil =>
    rw [show rootId (PTree.node i PForest.nil) = i from rfl]
    rw [agreesT] at hT
    have hcal : (getNode a i).callees = [] := by rw [hT.1, rootsF]
    have hifresh : iters i = Option.none :=
      hfresh i (by rw [idsT]; exact List.mem_cons_self _ _)
    rw [show stepsT (PTree.node i PForest.nil) + k = Nat.succ k by rw [stepsT]; omega]
    rw [ppLoop_succ a w k _ i rfl, ppStepAt_fresh_nil a w _ i hifresh hcal]
    refine congrArg (ppLoop a w k) ?_
    have hIT : (fun j => if j = i then Option.some ([] : List Nat) else iters j)
        = fun j => if j ∈ idsT (PTree.node i PForest.nil) then Option.some []
            else iters j := by
      funext j
      by_cases hj : j = i <;> simp [hj, idsT, idsF]
    have hOUT : out ++ printBlock w d (getNode a i)
        = out ++ specRenderT a w d (PTree.node i PForest.nil) := by
      rw [specRenderT_eq a w d i PForest.nil hT.1]
      simp
    rw [hIT, hOUT]
  | PTree.node i (PForest.cons c f2) =>
    rw [show rootId (PTree.node i (PForest.cons c f2)) = i from rfl]
    rw [agreesT] at hT
    rw [idsT, idsF] at hnodup
    have hni : i ∉ idsT c ++ idsF f2 := (List.nodup_cons.mp hnodup).1
    have hnapp := (List.nodup_cons.mp hnodup).2
    have hnc : (idsT c).Nodup := (List.nodup_append.mp hnapp).1
    have hnf2 : (idsF f2).Nodup := (List.nodup_append.mp hnapp).2.1
    have hdisj : (idsT c).Disjoint (idsF f2) := (List.nodup_append.mp hnapp).2.2
    have hcal : (getNode a i).callees = rootId c :: rootsF f2 := by
      rw [hT.1, rootsF]
    have hifresh : iters i = Option.none :=
      hfresh i (by rw [idsT]; exact List.mem_cons_self _ _)
    have hFc := hT.2
    rw [agreesF] at hFc
    rw [show stepsT (PTree.node i (PForest.cons c f2)) + k
      = Nat.succ (stepsT c + (stepsF f2 + k)) by rw [stepsT]; omega]
    rw [ppLoop_succ a w _ _ i rfl,
      ppStepAt_fresh_cons a w _ i (rootId c) (rootsF f2) hifresh hcal]
    rw [ppLoop_tree a w c hFc.2.1 hnc _ ?hfr (stepsF f2 + k) (d + 1) _]
    case hfr =>
      intro j hj
      have hji : j ≠ i := fun hEq => hni (hEq ▸ List.mem_append_left _ hj)
      rw [if_neg hji]
      refine hfresh j ?_
      rw [idsT, idsF]
      exact List.mem_cons_of_mem i (List.mem_append_left _ hj)
    rw [hFc.1, Int.add_sub_cancel]
    rw [ppLoop_forest a w f2 i hFc.2.2 hnf2 ?hpf _ ?hpit ?hne ?hfr2 k d _]
    case hpf =>
      intro hmem
      exact hni (List.mem_append_right _ hmem)
    case hpit =>
      have hic : i ∉ idsT c := fun hmem => hni (List.mem_append_left _ hmem)
      simp [hic]
    case hne =>
      rw [hcal]
      simp
    case hfr2 =>
      intro j hj
      have hji : j ≠ i := fun hEq => hni (hEq ▸ List.mem_append_right _ hj)
      have hjc : j ∉ idsT c := fun hmem => (hdisj hmem) hj
      simp only [hjc, if_false, if_neg hji]
      refine hfresh j ?_
      rw [idsT, idsF]
      exact List.mem_cons_of_mem i (List.mem_append_right _ hj)
    refine congrArg (ppLoop a w k) ?_
    have hIT : (fun j => if j = i then Option.some ([] : List Nat)
        else if j ∈ idsF f2 then Option.some []
        else if j ∈ idsT c then Option.some []
        else if j = i then Option.some (rootsF f2) else iters j)
        = fun j => if j ∈ idsT (PTree.node i (PForest.cons c f2)) then Option.some []
            else iters j := by
      funext j
      by_cases h1 : j = i
      · subst h1
        simp [idsT]
      · by_cases h2 : j ∈ idsT c
        · by_cases h3 : j ∈ idsF f2 <;> simp [h1, h2, h3, idsT, idsF]
        · by_cases h3 : j ∈ idsF f2 <;> simp [h1, h2, h3, idsT, idsF]
    have hOUT : out ++ printBlock w d (getNode a i) ++ specRenderT a w (d + 1) c
          ++ specRenderF a w (d + 1) f2 ++ [closeLine w d]
        = out ++ specRenderT a w d (PTree.node i (PForest.cons c f2)) := by
      rw [specRenderT_eq a w d i (PForest.cons c f2) hT.1]
      simp [specRenderF, closeLine, List.append_assoc]
    rw [hIT, hOUT]

theorem ppLoop_forest (a : Arena) (w : Nat) (f : PForest) (p : Nat)
    (hF : agreesF a p f) (hnodup : (idsF f).Nodup) (hp : p ∉ idsF f)
    (iters : Nat → Option (List Nat))
    (hpit : iters p = Option.some (rootsF f))
    (hne : (getNode a p).callees ≠ [])
    (hfresh : ∀ j ∈ idsF f, iters j = Option.none) (k : Nat) (d : Int)
    (out : List String) :
    ppLoop a w (stepsF f + k)
      { current := Option.some p, depth := d, iters := iters, out := out }
    = ppLoop a w k
      { current := (getNode a p).caller, depth := d - 1,
        iters := fun j => if j = p then Option.some []
          else if j ∈ idsF f then Option.some [] else iters j,
        out := out ++ specRenderF a w (d + 1) f ++ [closeLine w d] } := by
  match f with
  | PForest.nil =>
    rw [show stepsF PForest.nil + k = Nat.succ k by rw [stepsF]; omega]
    have hpit2 : iters p = Option.some [] := by rw [hpit, rootsF]
    rw [ppLoop_succ a w k _ p rfl, ppStepAt_seen_nil a w _ p hpit2]
    refine congrArg (ppLoop a w k) ?_
    have hIT : iters = fun j => if j = p then Option.some ([] : List Nat)
        else if j ∈ idsF PForest.nil then Option.some [] else iters j := by
      funext j
      by_cases hj : j = p
      · subst hj
        simp [hpit2]
      · simp [hj, idsF]
    have hOUT : out ++ (if (getNode a p).callees = [] then []
          else [closeLine w d])
        = out ++ specRenderF a w (d + 1) PForest.nil ++ [closeLine w d] := by
      rw [if_neg hne]
      simp [specRenderF]
    rw [← hIT, hOUT]
  | PForest.cons c f2 =>
    rw [idsF] at hnodup hp
    have hnc : (idsT c).Nodup := (List.nodup_append.mp hnodup).1
    have hnf2 : (idsF f2).Nodup := (List.nodup_append.mp hnodup).2.1
    have hdisj : (idsT c).Disjoint (idsF f2) := (List.nodup_append.mp hnodup).2.2
    have hpc : p ∉ idsT c := fun hmem => hp (List.mem_append_left _ hmem)
    have hpf2 : p ∉ idsF f2 := fun hmem => hp (List.mem_append_right _ hmem)
    rw [agreesF] at hF
    have hpit2 : iters p = Option.some (rootId c :: rootsF f2) := by
      rw [hpit, rootsF]
    rw [show stepsF (PForest.cons c f2) + k
      = Nat.succ (stepsT c + (stepsF f2 + k)) by rw [stepsF]; omega]
    rw [ppLoop_succ a w _ _ p rfl,
      ppStepAt_seen_cons a w _ p (rootId c) (rootsF f2) hpit2]
    rw [ppLoop_tree a w c hF.2.1 hnc _ ?hfr (stepsF f2 + k) (d + 1) _]
    case hfr =>
      intro j hj
      have hjp : j ≠ p := fun hEq => hpc (hEq ▸ hj)
      rw [if_neg hjp]
      refine hfresh j ?_
      rw [idsF]
      exact List.mem_append_left _ hj
    rw [hF.1, Int.add_sub_cancel]
    rw [ppLoop_forest a w f2 p hF.2.2 hnf2 hpf2 _ ?hpit ?hne ?hfr2 k d _]
    case hpit =>
      simp [hpc]
    case hne => exact hne
    case hfr2 =>
      intro j hj
      have hjp : j ≠ p := fun hEq => hpf2 (hEq ▸ hj)
      have hjc : j ∉ idsT c := fun hmem => (hdisj hmem) hj
      simp only [hjc, if_false, if_neg hjp]
      refine hfresh j ?_
      rw [idsF]
      exact List.mem_append_right _ hj
    refine congrArg (ppLoop a w k) ?_
    have hIT : (fun j => if j = p then Option.some ([] : List Nat)
        else if j ∈ idsF f2 then Option.some []
        else if j ∈ idsT c then Option.some []
        else if j = p then Option.some (rootsF f2) else iters j)
        = fun j => if j = p then Option.some []
            else if j ∈ idsF (PForest.cons c f2) then Option.some []
            else iters j := by
      funext j
      by_cases h1 : j = p
      · subst h1
        simp
      · by_cases h2 : j ∈ idsT c
        · by_cases h3 : j ∈ idsF f2 <;> simp [h1, h2, h3, idsF]
        · by_cases h3 : j ∈ idsF f2 <;> simp [h1, h2, h3, idsF]
    have hOUT : out ++ specRenderT a w (d + 1) c ++ specRenderF a w (d + 1) f2
          ++ [closeLine w d]
        = out ++ specRenderF a w (d + 1) (PForest.cons c f2) ++ [closeLine w d] := by
      simp [specRenderF, List.append_assoc]
    rw [hIT, hOUT]

end

/-- A printed line is a node header iff, after its indentation, it is exactly
the header `RecursiveCall`. -/
def isHeaderLine (l : String) : Bool :=
  decide (l.data.dropWhile (fun ch => ch == ' ') = ("RecursiveCall").data)

/-- Number of node headers in the output: the number of visited nodes. -/
def headerCount (out : List String) : Nat := (out.filter isHeaderLine).length

theorem headerCount_append (xs ys : List String) :
    headerCount (xs ++ ys) = headerCount xs + headerCount ys := by
  unfold headerCount
  rw [List.filter_append, List.length_append]

theorem dropWhile_sp_append (n : Nat) (l : List Char) :
    List.dropWhile (fun ch => ch == ' ') (List.replicate n ' ' ++ l)
      = List.dropWhile (fun ch => ch == ' ') l := by
  induction n with
  | zero => rfl
  | succ m ih =>
    rw [List.replicate_succ, List.cons_append, List.dropWhile_cons]
    simp [ih]

theorem indentFromDepth_data (d : Int) (w : Nat) (b : Bool) :
    (indentFromDepth d w b).data
      = List.replicate (((if d = 0 then 0 else (w : Int) * d * 2)
          + (if b then (w : Int) else 0)).toNat) ' ' := rfl

theorem isHeaderLine_indent (d : Int) (w : Nat) (b : Bool) (M : String) :
    isHeaderLine (indentFromDepth d w b ++ M) = isHeaderLine M := by
  unfold isHeaderLine
  rw [String.data_append, indentFromDepth_data, dropWhile_sp_append]

theorem isHeaderLine_append_false (s X : String) (c : Char) (rest : List Char)
    (hs : s.data = c :: rest) (hsp : (c == ' ') = false) (hcR : c ≠ 'R') :
    isHeaderLine (s ++ X) = false := by
  unfold isHeaderLine
  rw [String.data_append, hs, List.cons_append, List.dropWhile_cons]
  rw [hsp]
  rw [show ("RecursiveCall").data = 'R' :: ("ecursiveCall").data from rfl]
  simp [hcR]

theorem headerCount_printBlock (w : Nat) (d : Int) (nd : RecursiveCall) :
    headerCount (printBlock w d nd) = 1 := by
  unfold printBlock headerCount
  have h1 : isHeaderLine (indentFromDepth d w false ++ "RecursiveCall") = true := by
    rw [isHeaderLine_indent]
    decide
  have h2 : isHeaderLine (indentFromDepth d w true ++ "result="
      ++ reprResult nd.result) = false := by
    rw [String.append_assoc, isHeaderLine_indent]
    exact isHeaderLine_append_false _ _ 'r' ("esult=").data rfl (by decide) (by decide)
  have h3 : isHeaderLine (indentFromDepth d w true ++ "args="
      ++ reprArgs nd.args) = false := by
    rw [String.append_assoc, isHeaderLine_indent]
    exact isHeaderLine_append_false _ _ 'a' ("rgs=").data rfl (by decide) (by decide)
  have h4 : isHeaderLine (indentFromDepth d w true ++ "kwargs="
      ++ prettifyKwargsRepr nd.kwargs ++ ")") = false := by
    rw [String.append_assoc, String.append_assoc, isHeaderLine_indent]
    exact isHeaderLine_append_false _ _ 'k' ("wargs=").data rfl (by decide) (by decide)
  have h5 : isHeaderLine (if nd.callees = []
      then indentFromDepth d w true ++ "callees=[]"
      else indentFromDepth d w true ++ "callees=[") = false := by
    by_cases hc : nd.callees = [] <;> simp only [hc, if_true, if_false]
    · rw [isHeaderLine_indent]
      decide
    · rw [isHeaderLine_indent]
      decide
  rw [List.filter_cons, List.filter_cons, List.filter_cons, List.filter_cons,
    List.filter_cons, h1, h2, h3, h4, h5]
  rfl

theorem headerCount_closeLine (w : Nat) (d : Int) :
    headerCount [closeLine w d] = 0 := by
  unfold headerCount closeLine
  have h : isHeaderLine (indentFromDepth d w true ++ "],") = false := by
    rw [isHeaderLine_indent]
    decide
  rw [List.filter_cons, h]
  rfl

mutual

theorem headerCount_specRenderT (a : Arena) (w : Nat) (d : Int) (t : PTree) :
    headerCount (specRenderT a w d t) = sizeT t := by
  match t with
  | PTree.node i f =>
    have hhead : specRenderT a w d (PTree.node i f)
        = printBlock w d { getNode a i with
            callees := match f with | PForest.nil => [] | PForest.cons c f2 => [i] }
          ++ (match f with
              | PForest.nil => []
              | PForest.cons c f2 =>
                specRenderF a w (d + 1) (PForest.cons c f2) ++ [closeLine w d]) := by
      cases f with
      | nil => simp [specRenderT, printBlock]
      | cons c f2 => simp [specRenderT, printBlock, closeLine, List.append_assoc]
    rw [hhead, headerCount_append, headerCount_printBlock]
    cases f with
    | nil =>
      rw [sizeT, sizeF]
      rfl
    | cons c f2 =>
      rw [headerCount_append, headerCount_closeLine, headerCount_specRenderF a w (d + 1),
        sizeT]
      omega

theorem headerCount_specRenderF (a : Arena) (w : Nat) (d : Int) (f : PForest) :
    headerCount (specRenderF a w d f) = sizeF f := by
  match f with
  | PForest.nil => rfl
  | PForest.cons c f2 =>
    rw [specRenderF, headerCount_append, headerCount_specRenderT a w d c,
      headerCount_specRenderF a w d f2, sizeF]

end

/-- C5: on any well-formed call tree (realized in the arena, distinct
records, root without caller), the iterative traversal of `pretty_print` —
the explicit `callee_iterators` work list with `caller`-pointer ascent
modelled by `ppLoop`/`ppStepAt`, not recursion — terminates: after exactly
`stepsT t` loop iterations `current` is `None`, further fuel changes nothing,
and the output contains exactly one node header per node of the subtree
(every node is visited exactly once). -/
theorem prettyPrint_terminates_visits_once (a : Arena) (w : Nat) (t : PTree)
    (hT : agreesT a t) (hnodup : (idsT t).Nodup)
    (hroot : (getNode a (rootId t)).caller = Option.none) :
    (ppLoop a w (stepsT t) (initPP (rootId t))).current = Option.none ∧
    (∀ m, ppLoop a w (stepsT t + m) (initPP (rootId t))
      = ppLoop a w (stepsT t) (initPP (rootId t))) ∧
    headerCount (prettyPrint a (rootId t) w (stepsT t)) = sizeT t := by
  have hbase := ppLoop_tree a w t hT hnodup (fun _ => Option.none)
    (fun j _ => rfl) 0 0 []
  rw [Nat.add_zero, ppLoop_zero] at hbase
  have hinit : initPP (rootId t)
      = { current := Option.some (rootId t), depth := 0,
          iters := fun _ => Option.none, out := [] } := rfl
  refine ⟨?_, ?_, ?_⟩
  · rw [hinit, hbase]
    exact hroot
  · intro m
    have hm := ppLoop_tree a w t hT hnodup (fun _ => Option.none)
      (fun j _ => rfl) m 0 []
    rw [hinit, hm, hbase, ppLoop_done]
    exact hroot
  · unfold prettyPrint
    rw [hinit, hbase]
    show headerCount ([] ++ specRenderT a w 0 t) = sizeT t
    rw [List.nil_append, headerCount_specRenderT]

/-- C6: `pretty_print` renders the tree exactly as the spec's depth-first
pre-order contract describes (`specRenderT`): per node a header line, the
`result=`/`args=`/`kwargs=` fields each on their own line one indent level
deeper, then an opening marker, the children's renderings in stored order,
and a closing marker when the node has callees — or the explicit
`callees=[]` marker when it has none; every node's own lines precede its
children's. -/
theorem prettyPrint_renders_spec (a : Arena) (w : Nat) (t : PTree)
    (hT : agreesT a t) (hnodup : (idsT t).Nodup)
    (hroot : (getNode a (rootId t)).caller = Option.none) :
    prettyPrint a (rootId t) w (stepsT t) = specRenderT a w 0 t := by
  have hbase := ppLoop_tree a w t hT hnodup (fun _ => Option.none)
    (fun j _ => rfl) 0 0 []
  rw [Nat.add_zero, ppLoop_zero] at hbase
  unfold prettyPrint
  rw [show initPP (rootId t)
      = { current := Option.some (rootId t), depth := 0,
          iters := fun _ => Option.none, out := [] } from rfl, hbase]
  show [] ++ specRenderT a w 0 t = specRenderT a w 0 t
  rw [List.nil_append]

/-- A two-record arena: record 0 (a root) has the single callee 1. -/
def arenaPP : Arena :=
  [{ caller := Option.none, callees := [1], args := [PyVal.int 1], kwargs := [],
     result := Option.some (PyVal.int 2) },
   { caller := Option.some 0, callees := [], args := [], kwargs := [],
     result := Option.some (PyVal.int 3) }]

/-- The tree view of `arenaPP`. -/
def treePP : PTree := PTree.node 0 (PForest.cons (PTree.node 1 PForest.nil) PForest.nil)

theorem agreesT_arenaPP : agreesT arenaPP treePP :=
  ⟨rfl, rfl, ⟨rfl, trivial⟩, trivial⟩

/-- Witness for C5 on the concrete two-node tree. -/
theorem prettyPrint_terminates_visits_once_witness :
    (agreesT arenaPP treePP ∧ (idsT treePP).Nodup ∧
      (getNode arenaPP (rootId treePP)).caller = Option.none) ∧
    (ppLoop arenaPP 4 (stepsT treePP) (initPP (rootId treePP))).current
      = Option.none ∧
    headerCount (prettyPrint arenaPP (rootId treePP) 4 (stepsT treePP))
      = sizeT treePP :=
  ⟨⟨agreesT_arenaPP, by decide, rfl⟩,
   (prettyPrint_terminates_visits_once arenaPP 4 treePP agreesT_arenaPP
     (by decide) rfl).1,
   (prettyPrint_terminates_visits_once arenaPP 4 treePP agreesT_arenaPP
     (by decide) rfl).2.2⟩

/-- Witness for C6 on the concrete two-node tree. -/
theorem prettyPrint_renders_spec_witness :
    (agreesT arenaPP treePP ∧ (idsT treePP).Nodup ∧
      (getNode arenaPP (rootId treePP)).caller = Option.none) ∧
    prettyPrint arenaPP (rootId treePP) 4 (stepsT treePP)
      = specRenderT arenaPP 4 0 treePP :=
  ⟨⟨agreesT_arenaPP, by decide, rfl⟩,
   prettyPrint_renders_spec arenaPP 4 treePP agreesT_arenaPP (by decide) rfl⟩

/-- Number of leading spaces of a printed line. -/
def leadingSpaces (l : String) : Nat :=
  (l.data.takeWhile (fun ch => ch == ' ')).length

theorem toNat_width (w n : Nat) : ((w : Int) * (n : Int) * 2).toNat = w * n * 2 := by
  rw [show (w : Int) * (n : Int) * 2 = ((w * n * 2 : Nat) : Int) by push_cast; ring]
  exact Int.toNat_natCast _

/-- C7 counterexample: with `indent = 4`, printing the two-record tree of
`arenaPP` from its root ends with the root's closing marker `],` indented by
4 spaces — the hanging indent `w*d*2 + w` — not by the `w*d*2 = 0` spaces the
claim assigns to closing-marker lines. -/
theorem closing_marker_indent_counterexample :
    (prettyPrint arenaPP 0 4 3).getLast? = Option.some (closeLine 4 0) ∧
    leadingSpaces (closeLine 4 0) = 4 * 0 * 2 + 4 ∧
    leadingSpaces (closeLine 4 0) ≠ 4 * 0 * 2 := by
  refine ⟨?_, by decide, by decide⟩
  decide

/-- C7 amended: for a node at nesting depth `d ≥ 0` and indent width `w`, the
header line is indented by exactly `w * d * 2` spaces, while the field lines,
the opening marker, and also the closing marker (`],`) are indented by
exactly `w * d * 2 + w` spaces — the closing marker uses the hanging indent,
not the header indent. -/
theorem indentFromDepth_amended (w n : Nat) (nd : RecursiveCall) :
    (indentFromDepth (n : Int) w false).length = w * n * 2 ∧
    (indentFromDepth (n : Int) w true).length = w * n * 2 + w ∧
    (printBlock w (n : Int) nd).head?
      = Option.some (indentFromDepth (n : Int) w false ++ "RecursiveCall") ∧
    (∀ l ∈ (printBlock w (n : Int) nd).tail,
      ∃ s, l = indentFromDepth (n : Int) w true ++ s) ∧
    closeLine w (n : Int) = indentFromDepth (n : Int) w true ++ "]," := by
  have hlen : ∀ (l : List Char), (String.mk l).length = l.length := fun _ => rfl
  have hfalse : (indentFromDepth (n : Int) w false).length = w * n * 2 := by
    unfold indentFromDepth
    rw [hlen, List.length_replicate]
    by_cases hn : n = 0
    · subst hn
      simp
    · have hn2 : ((n : Int)) ≠ 0 := by
        simpa using hn
      rw [if_neg hn2]
      simp [toNat_width]
  have htrue : (indentFromDepth (n : Int) w true).length = w * n * 2 + w := by
    unfold indentFromDepth
    rw [hlen, List.length_replicate]
    by_cases hn : n = 0
    · subst hn
      simp
    · have hn2 : ((n : Int)) ≠ 0 := by
        simpa using hn
      rw [if_neg hn2, if_pos rfl]
      rw [show (w : Int) * (n : Int) * 2 + (w : Int)
        = ((w * n * 2 + w : Nat) : Int) by push_cast; ring]
      exact Int.toNat_natCast _
  refine ⟨hfalse, htrue, rfl, ?_, rfl⟩
  intro l hl
  simp only [printBlock, List.tail_cons, List.mem_cons, List.mem_singleton] at hl
  rcases hl with h | h | h | h | h
  · exact ⟨"result=" ++ reprResult nd.result, by rw [h, String.append_assoc]⟩
  · exact ⟨"args=" ++ reprArgs nd.args, by rw [h, String.append_assoc]⟩
  · exact ⟨"kwargs=" ++ prettifyKwargsRepr nd.kwargs ++ ")",
      by rw [h]; simp [String.append_assoc]⟩
  · by_cases hc : nd.callees = []
    · rw [if_pos hc] at h
      exact ⟨"callees=[]", h⟩
    · rw [if_neg hc] at h
      exact ⟨"callees=[", h⟩
  · cases h

/-- Append of forests. -/
def appF : PForest → PForest → PForest
  | PForest.nil, g => g
  | PForest.cons c f, g => PForest.cons c (appF f g)

theorem idsF_appF (f g : PForest) : idsF (appF f g) = idsF f ++ idsF g := by
  match f with
  | PForest.nil => rw [appF, idsF, List.nil_append]
  | PForest.cons c f2 =>
    rw [appF, idsF, idsF, idsF_appF f2 g, List.append_assoc]

theorem rootsF_appF (f g : PForest) : rootsF (appF f g) = rootsF f ++ rootsF g := by
  match f with
  | PForest.nil => rw [appF, rootsF, List.nil_append]
  | PForest.cons c f2 =>
    rw [appF, rootsF, rootsF, rootsF_appF f2 g, List.cons_append]

theorem sizeF_appF (f g : PForest) : sizeF (appF f g) = sizeF f + sizeF g := by
  match f with
  | PForest.nil => rw [appF, sizeF]; omega
  | PForest.cons c f2 =>
    rw [appF, sizeF, sizeF, sizeF_appF f2 g]
    omega

theorem agreesF_appF (a : Arena) (p : Nat) (f g : PForest)
    (h : agreesF a p (appF f g)) : agreesF a p f ∧ agreesF a p g := by
  match f with
  | PForest.nil =>
    rw [appF] at h
    exact ⟨trivial, h⟩
  | PForest.cons c f2 =>
    rw [appF, agreesF] at h
    have := agreesF_appF a p f2 g h.2.2
    exact ⟨⟨h.1, h.2.1, this.1⟩, this.2⟩

theorem sizeT_pos (t : PTree) : 1 ≤ sizeT t := by
  match t with
  | PTree.node i f => rw [sizeT]; omega

/-- `s` is the subtree rooted at one of the children of `t`'s root. -/
def ICS (s t : PTree) : Prop :=
  ∃ p f1 f2, t = PTree.node p (appF f1 (PForest.cons s f2))

theorem ICS_size {s t : PTree} (h : ICS s t) : sizeT s < sizeT t := by
  obtain ⟨p, f1, f2, rfl⟩ := h
  rw [sizeT, sizeF_appF, sizeF]
  omega

theorem transGen_size {s t : PTree} (h : Relation.TransGen ICS s t) :
    sizeT s < sizeT t := by
  induction h with
  | single h1 => exact ICS_size h1
  | tail _ h2 ih => exact Nat.lt_trans ih (ICS_size h2)

theorem ICS_sub {a : Arena} {s t : PTree} (h : ICS s t) (hT : agreesT a t)
    (hnd : (idsT t).Nodup) :
    agreesT a s ∧ (idsT s).Nodup ∧ (∀ j ∈ idsT s, j ∈ idsT t) := by
  obtain ⟨p, f1, f2, rfl⟩ := h
  rw [agreesT] at hT
  have hparts := agreesF_appF a p f1 (PForest.cons s f2) hT.2
  rw [agreesF] at hparts
  rw [idsT, idsF_appF, idsF] at hnd
  have hnd2 : (idsF f1 ++ (idsT s ++ idsF f2)).Nodup := (List.nodup_cons.mp hnd).2
  refine ⟨hparts.2.2.1, ?_, ?_⟩
  · exact ((List.nodup_append.mp (List.Nodup.of_append_right hnd2)).1)
  · intro j hj
    rw [idsT, idsF_appF, idsF]
    exact List.mem_cons_of_mem _
      (List.mem_append_right _ (List.mem_append_left _ hj))

theorem transGen_sub {a : Arena} {s t : PTree} (h : Relation.TransGen ICS s t)
    (hT : agreesT a t) (hnd : (idsT t).Nodup) :
    agreesT a s ∧ (idsT s).Nodup ∧ (∀ j ∈ idsT s, j ∈ idsT t) := by
  revert hT hnd
  induction h with
  | single h1 => exact fun hT hnd => ICS_sub h1 hT hnd
  | tail _ h2 ih =>
    intro hT hnd
    have hu := ICS_sub h2 hT hnd
    have hs := ih hu.1 hu.2.1
    exact ⟨hs.1, hs.2.1, fun j hj => hu.2.2 j (hs.2.2 j hj)⟩

/-- Revisiting the already-exhausted subtree root `s` from its parent `p`
costs one step (a possible extra closing marker), and the parent's remaining
fresh children `f2` and closing then complete as usual. -/
theorem ppLoop_finish (a : Arena) (w : Nat) (s : PTree) (f2 : PForest) (p : Nat)
    (hcall : (getNode a (rootId s)).caller = Option.some p)
    (hF2 : agreesF a p f2) (hnd2 : (idsF f2).Nodup) (hp2 : p ∉ idsF f2)
    (iters : Nat → Option (List Nat))
    (hfin : iters (rootId s) = Option.some [])
    (hpit : iters p = Option.some (rootsF f2))
    (hfr2 : ∀ j ∈ idsF f2, iters j = Option.none)
    (hne : (getNode a p).callees ≠ []) (d : Int) (out : List String) :
    ∀ k, ppLoop a w ((1 + stepsF f2) + k)
      { current := Option.some (rootId s), depth := d + 1, iters := iters, out := out }
    = ppLoop a w k
      { current := (getNode a p).caller, depth := d - 1,
        iters := fun j => if j = p then Option.some []
          else if j ∈ idsF f2 then Option.some [] else iters j,
        out := out ++ ((if (getNode a (rootId s)).callees = [] then []
          else [closeLine w (d + 1)]) ++ (specRenderF a w (d + 1) f2
          ++ [closeLine w d])) } := by
  intro k
  rw [show (1 + stepsF f2) + k = Nat.succ (stepsF f2 + k) by omega]
  rw [ppLoop_succ a w _ _ (rootId s) rfl, ppStepAt_seen_nil a w _ (rootId s) hfin]
  rw [hcall, Int.add_sub_cancel]
  rw [ppLoop_forest a w f2 p hF2 hnd2 hp2 iters hpit hne hfr2 k d _]
  refine congrArg (ppLoop a w k) ?_
  rw [List.append_assoc, List.append_assoc]

/-- Processing the parent's remaining children `f1 ++ [s] ++ f2` when `s`'s
subtree is already exhausted in the iterator dict: the fresh children of `f1`
and `f2` are rendered fully, revisiting `s` costs one step, and the parent
closes; exactly `sizeF f1 + sizeF f2` node headers are printed. -/
theorem ppLoop_upF (a : Arena) (w : Nat) (f1 : PForest) (s : PTree) (f2 : PForest)
    (p : Nat) (hF1 : agreesF a p f1)
    (hcall : (getNode a (rootId s)).caller = Option.some p)
    (hF2 : agreesF a p f2)
    (hnd : (idsF f1 ++ (idsT s ++ idsF f2)).Nodup)
    (hp : p ∉ idsF f1 ++ (idsT s ++ idsF f2))
    (iters : Nat → Option (List Nat))
    (hfin : iters (rootId s) = Option.some [])
    (hpit : iters p = Option.some (rootsF f1 ++ (rootId s :: rootsF f2)))
    (hfr1 : ∀ j ∈ idsF f1, iters j = Option.none)
    (hfr2 : ∀ j ∈ idsF f2, iters j = Option.none)
    (hne : (getNode a p).callees ≠ []) (d : Int) (out : List String) :
    ∃ (N : Nat) (extra : List String),
      headerCount extra = sizeF f1 + sizeF f2 ∧
      ∀ k, ppLoop a w (N + k)
        { current := Option.some p, depth := d, iters := iters, out := out }
      = ppLoop a w k
        { current := (getNode a p).caller, depth := d - 1,
          iters := fun j => if j = p then Option.some []
            else if j ∈ idsF f1 then Option.some []
            else if j ∈ idsF f2 then Option.some [] else iters j,
          out := out ++ extra } := by
  match f1 with
  | PForest.nil =>
    rw [idsF, List.nil_append] at hnd hp
    have hroots : p ∉ idsT s := fun hmem => hp (List.mem_append_left _ hmem)
    have hrs : rootId s ∈ idsT s := by
      match s with
      | PTree.node i f => rw [rootId, idsT]; exact List.mem_cons_self _ _
    have hrsp : rootId s ≠ p := fun hEq => hroots (hEq ▸ hrs)
    have hpit2 : iters p = Option.some (rootId s :: rootsF f2) := by
      rw [hpit, rootsF, List.nil_append]
    refine ⟨1 + (1 + stepsF f2),
      (if (getNode a (rootId s)).callees = [] then [] else [closeLine w (d + 1)])
        ++ (specRenderF a w (d + 1) f2 ++ [closeLine w d]), ?_, ?_⟩
    · rw [headerCount_append, headerCount_append, headerCount_specRenderF,
        headerCount_closeLine]
      have h0 : headerCount (if (getNode a (rootId s)).callees = []
          then ([] : List String) else [closeLine w (d + 1)]) = 0 := by
        by_cases hc : (getNode a (rootId s)).callees = []
        · rw [if_pos hc]
          rfl
        · rw [if_neg hc]
          exact headerCount_closeLine w (d + 1)
      rw [h0, sizeF]
      omega
    · intro k
      rw [show (1 + (1 + stepsF f2)) + k = Nat.succ ((1 + stepsF f2) + k) by omega]
      rw [ppLoop_succ a w _ _ p rfl, ppStepAt_seen_cons a w _ p (rootId s)
        (rootsF f2) hpit2]
      rw [ppLoop_finish a w s f2 p hcall hF2
        (List.Nodup.of_append_right hnd)
        (fun hmem => hp (List.mem_append_right _ hmem)) _ ?hfin ?hpit ?hfr2 hne d out k]
      case hfin =>
        rw [if_neg hrsp]
        exact hfin
      case hpit => simp
      case hfr2 =>
        intro j hj
        have hjp : j ≠ p := fun hEq => hp (hEq ▸ List.mem_append_right _ hj)
        rw [if_neg hjp]
        exact hfr2 j hj
      refine congrArg (ppLoop a w k) ?_
      have hIT : (fun j => if j = p then Option.some ([] : List Nat)
          else if j ∈ idsF f2 then Option.some []
          else if j = p then Option.some (rootsF f2) else iters j)
          = fun j => if j = p then Option.some []
            else if j ∈ idsF PForest.nil then Option.some []
            else if j ∈ idsF f2 then Option.some [] else iters j := by
        funext j
        by_cases h1 : j = p
        · simp [h1]
        · by_cases h2 : j ∈ idsF f2 <;> simp [h1, h2, idsF]
      rw [hIT]
  | PForest.cons c f12 =>
    rw [idsF, List.append_assoc] at hnd hp
    have hndc : (idsT c).Nodup := (List.nodup_append.mp hnd).1
    have hndrest : (idsF f12 ++ (idsT s ++ idsF f2)).Nodup :=
      (List.nodup_append.mp hnd).2.1
    have hdisjc : (idsT c).Disjoint (idsF f12 ++ (idsT s ++ idsF f2)) :=
      (List.nodup_append.mp hnd).2.2
    have hpc : p ∉ idsT c := fun hmem => hp (List.mem_append_left _ hmem)
    have hprest : p ∉ idsF f12 ++ (idsT s ++ idsF f2) :=
      fun hmem => hp (List.mem_append_right _ hmem)
    rw [agreesF] at hF1
    have hpit2 : iters p
        = Option.some (rootId c :: (rootsF f12 ++ (rootId s :: rootsF f2))) := by
      rw [hpit, rootsF, List.cons_append]
    have hrs : rootId s ∈ idsT s := by
      match s with
      | PTree.node i f => rw [rootId, idsT]; exact List.mem_cons_self _ _
    have hfinX : (fun j => if j ∈ idsT c then Option.some ([] : List Nat)
        else if j = p then Option.some (rootsF f12 ++ (rootId s :: rootsF f2))
        else iters j) (rootId s) = Option.some [] := by
      have h1 : rootId s ∉ idsT c := fun hmem =>
        (hdisjc hmem) (List.mem_append_right _ (List.mem_append_left _ hrs))
      have h2 : rootId s ≠ p := fun hEq =>
        hprest (hEq ▸ List.mem_append_right _ (List.mem_append_left _ hrs))
      simp only [if_neg h1, if_neg h2]
      exact hfin
    have hpitX : (fun j => if j ∈ idsT c then Option.some ([] : List Nat)
        else if j = p then Option.some (rootsF f12 ++ (rootId s :: rootsF f2))
        else iters j) p = Option.some (rootsF f12 ++ (rootId s :: rootsF f2)) := by
      simp [hpc]
    have hfr1X : ∀ j ∈ idsF f12,
        (fun j => if j ∈ idsT c then Option.some ([] : List Nat)
          else if j = p then Option.some (rootsF f12 ++ (rootId s :: rootsF f2))
          else iters j) j = Option.none := by
      intro j hj
      have h1 : j ∉ idsT c := fun hmem => (hdisjc hmem) (List.mem_append_left _ hj)
      have h2 : j ≠ p := fun hEq => hprest (hEq ▸ List.mem_append_left _ hj)
      simp only [if_neg h1, if_neg h2]
      exact hfr1 j (by rw [idsF]; exact List.mem_append_right _ hj)
    have hfr2X : ∀ j ∈ idsF f2,
        (fun j => if j ∈ idsT c then Option.some ([] : List Nat)
          else if j = p then Option.some (rootsF f12 ++ (rootId s :: rootsF f2))
          else iters j) j = Option.none := by
      intro j hj
      have h1 : j ∉ idsT c := fun hmem =>
        (hdisjc hmem) (List.mem_append_right _ (List.mem_append_right _ hj))
      have h2 : j ≠ p := fun hEq =>
        hprest (hEq ▸ List.mem_append_right _ (List.mem_append_right _ hj))
      simp only [if_neg h1, if_neg h2]
      exact hfr2 j hj
    obtain ⟨N2, extra2, hhc2, hrun2⟩ := ppLoop_upF a w f12 s f2 p hF1.2.2 hcall hF2
      hndrest hprest
      (fun j => if j ∈ idsT c then Option.some []
        else if j = p then Option.some (rootsF f12 ++ (rootId s :: rootsF f2))
        else iters j)
      hfinX hpitX hfr1X hfr2X hne d (out ++ specRenderT a w (d + 1) c)
    refine ⟨1 + stepsT c + N2, specRenderT a w (d + 1) c ++ extra2, ?_, ?_⟩
    · rw [headerCount_append, headerCount_specRenderT, hhc2, sizeF]
      omega
    · intro k
      rw [show (1 + stepsT c + N2) + k = Nat.succ (stepsT c + (N2 + k)) by omega]
      rw [ppLoop_succ a w _ _ p rfl, ppStepAt_seen_cons a w _ p (rootId c)
        (rootsF f12 ++ (rootId s :: rootsF f2)) hpit2]
      rw [ppLoop_tree a w c hF1.2.1 hndc _ ?hfrc (N2 + k) (d + 1) out]
      case hfrc =>
        intro j hj
        have h2 : j ≠ p := fun hEq => hpc (hEq ▸ hj)
        rw [if_neg h2]
        exact hfr1 j (by rw [idsF]; exact List.mem_append_left _ hj)
      rw [hF1.1, Int.add_sub_cancel, hrun2 k]
      refine congrArg (ppLoop a w k) ?_
      have hOUT : out ++ specRenderT a w (d + 1) c ++ extra2
          = out ++ (specRenderT a w (d + 1) c ++ extra2) := by
        rw [List.append_assoc]
      have hIT : (fun j => if j = p then Option.some ([] : List Nat)
          else if j ∈ idsF f12 then Option.some []
          else if j ∈ idsF f2 then Option.some []
          else if j ∈ idsT c then Option.some []
          else if j = p then Option.some (rootsF f12 ++ (rootId s :: rootsF f2))
          else iters j)
          = fun j => if j = p then Option.some []
            else if j ∈ idsF (PForest.cons c f12) then Option.some []
            else if j ∈ idsF f2 then Option.some [] else iters j := by
        funext j
        by_cases h1 : j = p
        · simp [h1]
        · by_cases h2 : j ∈ idsT c
          · by_cases h3 : j ∈ idsF f12 <;> by_cases h4 : j ∈ idsF f2 <;>
              simp [h1, h2, h3, h4, idsF]
          · by_cases h3 : j ∈ idsF f12 <;> by_cases h4 : j ∈ idsF f2 <;>
              simp [h1, h2, h3, h4, idsF]
      rw [hOUT, hIT]

/-- If `s` sits as an immediate child subtree inside `u` and the arena
realizes `u`, then the caller link of `s`'s root points at `u`'s root. -/
theorem ICS_caller {a : Arena} {s u : PTree} (h : ICS s u) (hU : agreesT a u) :
    (getNode a (rootId s)).caller = Option.some (rootId u) := by
  obtain ⟨p, f1, f2, rfl⟩ := h
  rw [agreesT] at hU
  have h2 := (agreesF_appF a p f1 (PForest.cons s f2) hU.2).2
  rw [agreesF] at h2
  rw [show rootId (PTree.node p (appF f1 (PForest.cons s f2))) = p from rfl]
  exact h2.1

/-- One ascent level: with the subtree of `s` exhausted in the iterator dict
and its parent tree `u` otherwise untouched, the loop arriving at `u`'s root
prints `u`'s own block, renders every node of `u` outside `s` exactly once
(revisiting `s` costs one step and at most a closing marker), and hands
control to `u`'s own caller. -/
theorem ppLoop_level (a : Arena) (w : Nat) (s u : PTree) (hICS : ICS s u)
    (hU : agreesT a u) (hnd : (idsT u).Nodup)
    (iters : Nat → Option (List Nat))
    (hdone : ∀ j ∈ idsT s, iters j = Option.some [])
    (hfresh : ∀ j ∈ idsT u, j ∉ idsT s → iters j = Option.none)
    (d : Int) (out : List String) :
    ∃ (N : Nat) (extra : List String) (iters2 : Nat → Option (List Nat)),
      headerCount extra + sizeT s = sizeT u ∧
      (∀ j ∈ idsT u, iters2 j = Option.some []) ∧
      (∀ j, j ∉ idsT u → iters2 j = iters j) ∧
      ∀ k, ppLoop a w (N + k)
        { current := Option.some (rootId u), depth := d, iters := iters,
          out := out }
      = ppLoop a w k
        { current := (getNode a (rootId u)).caller, depth := d - 1,
          iters := iters2, out := out ++ extra } := by
  obtain ⟨p, f1, f2, rfl⟩ := hICS
  simp only [rootId]
  rw [agreesT] at hU
  obtain ⟨hF1, hcons⟩ := agreesF_appF a p f1 (PForest.cons s f2) hU.2
  rw [agreesF] at hcons
  obtain ⟨hcall, hS, hF2⟩ := hcons
  have hcaleq : (getNode a p).callees = rootsF f1 ++ (rootId s :: rootsF f2) := by
    rw [hU.1, rootsF_appF, rootsF]
  have hne : (getNode a p).callees ≠ [] := by
    rw [hcaleq]
    simp
  have hrs : rootId s ∈ idsT s := by
    match s with
    | PTree.node i f => rw [rootId, idsT]; exact List.mem_cons_self _ _
  cases f1 with
  | nil =>
    have hcalcons : (getNode a p).callees = rootId s :: rootsF f2 := by
      rw [hcaleq, rootsF, List.nil_append]
    have hidu : idsT (PTree.node p (appF PForest.nil (PForest.cons s f2)))
        = p :: (idsT s ++ idsF f2) := by
      simp only [idsT, idsF_appF, idsF, List.nil_append]
    have hndX := hnd
    rw [hidu] at hndX
    have hp2A : p ∉ idsT s ++ idsF f2 := (List.nodup_cons.mp hndX).1
    have hndrest : (idsT s ++ idsF f2).Nodup := (List.nodup_cons.mp hndX).2
    have hnd2 : (idsF f2).Nodup := List.Nodup.of_append_right hndrest
    have hdisj : (idsT s).Disjoint (idsF f2) := (List.nodup_append.mp hndrest).2.2
    have hp2 : p ∉ idsF f2 := fun hm => hp2A (List.mem_append_right _ hm)
    have hps : p ∉ idsT s := fun hm => hp2A (List.mem_append_left _ hm)
    have hpfresh : iters p = Option.none :=
      hfresh p (by rw [hidu]; exact List.mem_cons_self _ _) hps
    have hrsp : rootId s ≠ p := fun hEq => hps (hEq ▸ hrs)
    refine ⟨1 + (1 + stepsF f2),
      printBlock w d (getNode a p)
        ++ ((if (getNode a (rootId s)).callees = [] then []
            else [closeLine w (d + 1)])
          ++ (specRenderF a w (d + 1) f2 ++ [closeLine w d])),
      (fun j => if j = p then Option.some []
        else if j ∈ idsF f2 then Option.some []
        else if j = p then Option.some (rootsF f2) else iters j), ?_, ?_, ?_, ?_⟩
    · have h0 : headerCount (if (getNode a (rootId s)).callees = []
          then ([] : List String) else [closeLine w (d + 1)]) = 0 := by
        by_cases hc0 : (getNode a (rootId s)).callees = []
        · rw [if_pos hc0]
          rfl
        · rw [if_neg hc0]
          exact headerCount_closeLine w (d + 1)
      rw [headerCount_append, headerCount_append, headerCount_append,
        headerCount_printBlock, headerCount_specRenderF, headerCount_closeLine, h0]
      rw [sizeT, sizeF_appF, sizeF, sizeF]
      omega
    · intro j hj
      rw [hidu] at hj
      by_cases h1 : j = p
      · simp [h1]
      · by_cases h2 : j ∈ idsF f2
        · simp [h1, h2]
        · have h3 : j ∈ idsT s := by
            rcases List.mem_cons.mp hj with h | h
            · exact absurd h h1
            rcases List.mem_append.mp h with h | h
            · exact h
            · exact absurd h h2
          simp [h1, h2, hdone j h3]
    · intro j hj
      rw [hidu] at hj
      have h1 : j ≠ p := fun hEq => hj (by rw [hEq]; exact List.mem_cons_self _ _)
      have h2 : j ∉ idsF f2 :=
        fun hm => hj (List.mem_cons_of_mem _ (List.mem_append_right _ hm))
      simp [h1, h2]
    · intro k
      rw [show (1 + (1 + stepsF f2)) + k = Nat.succ ((1 + stepsF f2) + k) by omega]
      rw [ppLoop_succ a w _ _ p rfl]
      rw [ppStepAt_fresh_cons a w _ p (rootId s) (rootsF f2) hpfresh hcalcons]
      rw [ppLoop_finish a w s f2 p hcall hF2 hnd2 hp2 _ ?hfin ?hpit ?hfr2 hne d _ k]
      case hfin =>
        rw [if_neg hrsp]
        exact hdone (rootId s) hrs
      case hpit => simp
      case hfr2 =>
        intro j hj
        have hjp : j ≠ p := fun hEq => hp2 (hEq ▸ hj)
        rw [if_neg hjp]
        exact hfresh j
          (by rw [hidu]; exact List.mem_cons_of_mem _ (List.mem_append_right _ hj))
          (fun hm => hdisj hm hj)
      refine congrArg (ppLoop a w k) ?_
      rw [List.append_assoc]
  | cons c f1t =>
    rw [agreesF] at hF1
    obtain ⟨hcallc, hC, hF1t⟩ := hF1
    have hcalcons : (getNode a p).callees
        = rootId c :: (rootsF f1t ++ (rootId s :: rootsF f2)) := by
      rw [hcaleq, rootsF, List.cons_append]
    have hidu : idsT (PTree.node p (appF (PForest.cons c f1t) (PForest.cons s f2)))
        = p :: (idsT c ++ (idsF f1t ++ (idsT s ++ idsF f2))) := by
      simp only [idsT, idsF_appF, idsF, List.append_assoc]
    have hndX := hnd
    rw [hidu] at hndX
    have hpr : p ∉ idsT c ++ (idsF f1t ++ (idsT s ++ idsF f2)) :=
      (List.nodup_cons.mp hndX).1
    have hndrest : (idsT c ++ (idsF f1t ++ (idsT s ++ idsF f2))).Nodup :=
      (List.nodup_cons.mp hndX).2
    have hndc : (idsT c).Nodup := (List.nodup_append.mp hndrest).1
    have hndrest2 : (idsF f1t ++ (idsT s ++ idsF f2)).Nodup :=
      (List.nodup_append.mp hndrest).2.1
    have hdisjc : (idsT c).Disjoint (idsF f1t ++ (idsT s ++ idsF f2)) :=
      (List.nodup_append.mp hndrest).2.2
    have hpc : p ∉ idsT c := fun hm => hpr (List.mem_append_left _ hm)
    have hprest2 : p ∉ idsF f1t ++ (idsT s ++ idsF f2) :=
      fun hm => hpr (List.mem_append_right _ hm)
    have hps : p ∉ idsT s :=
      fun hm => hprest2 (List.mem_append_right _ (List.mem_append_left _ hm))
    have hpfresh : iters p = Option.none :=
      hfresh p (by rw [hidu]; exact List.mem_cons_self _ _) hps
    have hdisj1 : (idsF f1t).Disjoint (idsT s ++ idsF f2) :=
      (List.nodup_append.mp hndrest2).2.2
    have hndsf2 : (idsT s ++ idsF f2).Nodup := (List.nodup_append.mp hndrest2).2.1
    have hdisjs2 : (idsT s).Disjoint (idsF f2) := (List.nodup_append.mp hndsf2).2.2
    have hsc : rootId s ∉ idsT c := fun hm =>
      hdisjc hm (List.mem_append_right _ (List.mem_append_left _ hrs))
    have hrsp : rootId s ≠ p := fun hEq => hps (hEq ▸ hrs)
    have hfinX : (fun j => if j ∈ idsT c then Option.some ([] : List Nat)
        else if j = p then Option.some (rootsF f1t ++ (rootId s :: rootsF f2))
        else iters j) (rootId s) = Option.some [] := by
      simp only [if_neg hsc, if_neg hrsp]
      exact hdone (rootId s) hrs
    have hpitX : (fun j => if j ∈ idsT c then Option.some ([] : List Nat)
        else if j = p then Option.some (rootsF f1t ++ (rootId s :: rootsF f2))
        else iters j) p = Option.some (rootsF f1t ++ (rootId s :: rootsF f2)) := by
      simp [hpc]
    have hfr1X : ∀ j ∈ idsF f1t,
        (fun j => if j ∈ idsT c then Option.some ([] : List Nat)
          else if j = p then Option.some (rootsF f1t ++ (rootId s :: rootsF f2))
          else iters j) j = Option.none := by
      intro j hj
      have h1 : j ∉ idsT c := fun hm => hdisjc hm (List.mem_append_left _ hj)
      have h2 : j ≠ p := fun hEq => hprest2 (hEq ▸ List.mem_append_left _ hj)
      simp only [if_neg h1, if_neg h2]
      exact hfresh j
        (by
          rw [hidu]
          exact List.mem_cons_of_mem _
            (List.mem_append_right _ (List.mem_append_left _ hj)))
        (fun hm => hdisj1 hj (List.mem_append_left _ hm))
    have hfr2X : ∀ j ∈ idsF f2,
        (fun j => if j ∈ idsT c then Option.some ([] : List Nat)
          else if j = p then Option.some (rootsF f1t ++ (rootId s :: rootsF f2))
          else iters j) j = Option.none := by
      intro j hj
      have h1 : j ∉ idsT c := fun hm =>
        hdisjc hm (List.mem_append_right _ (List.mem_append_right _ hj))
      have h2 : j ≠ p := fun hEq =>
        hprest2 (hEq ▸ List.mem_append_right _ (List.mem_append_right _ hj))
      simp only [if_neg h1, if_neg h2]
      exact hfresh j
        (by
          rw [hidu]
          exact List.mem_cons_of_mem _ (List.mem_append_right _
            (List.mem_append_right _ (List.mem_append_right _ hj))))
        (fun hm => hdisjs2 hm hj)
    obtain ⟨N2, extra2, hhc2, hrun2⟩ := ppLoop_upF a w f1t s f2 p hF1t hcall hF2
      hndrest2 hprest2
      (fun j => if j ∈ idsT c then Option.some []
        else if j = p then Option.some (rootsF f1t ++ (rootId s :: rootsF f2))
        else iters j)
      hfinX hpitX hfr1X hfr2X hne d
      ((out ++ printBlock w d (getNode a p)) ++ specRenderT a w (d + 1) c)
    refine ⟨1 + stepsT c + N2,
      printBlock w d (getNode a p) ++ (specRenderT a w (d + 1) c ++ extra2),
      (fun j => if j = p then Option.some []
        else if j ∈ idsF f1t then Option.some []
        else if j ∈ idsF f2 then Option.some []
        else if j ∈ idsT c then Option.some []
        else if j = p then Option.some (rootsF f1t ++ (rootId s :: rootsF f2))
        else iters j), ?_, ?_, ?_, ?_⟩
    · rw [headerCount_append, headerCount_append, headerCount_printBlock,
        headerCount_specRenderT, hhc2]
      rw [sizeT, sizeF_appF, sizeF, sizeF]
      omega
    · intro j hj
      rw [hidu] at hj
      by_cases h1 : j = p
      · simp [h1]
      · by_cases h2 : j ∈ idsF f1t
        · simp [h1, h2]
        · by_cases h3 : j ∈ idsF f2
          · simp [h1, h2, h3]
          · by_cases h4 : j ∈ idsT c
            · simp [h1, h2, h3, h4]
            · have h5 : j ∈ idsT s := by
                rcases List.mem_cons.mp hj with h | h
                · exact absurd h h1
                rcases List.mem_append.mp h with h | h
                · exact absurd h h4
                rcases List.mem_append.mp h with h | h
                · exact absurd h h2
                rcases List.mem_append.mp h with h | h
                · exact h
                · exact absurd h h3
              simp [h1, h2, h3, h4, hdone j h5]
    · intro j hj
      rw [hidu] at hj
      have h1 : j ≠ p := fun hEq => hj (by rw [hEq]; exact List.mem_cons_self _ _)
      have h4 : j ∉ idsT c := fun hm =>
        hj (List.mem_cons_of_mem _ (List.mem_append_left _ hm))
      have h2 : j ∉ idsF f1t := fun hm =>
        hj (List.mem_cons_of_mem _
          (List.mem_append_right _ (List.mem_append_left _ hm)))
      have h3 : j ∉ idsF f2 := fun hm =>
        hj (List.mem_cons_of_mem _ (List.mem_append_right _
          (List.mem_append_right _ (List.mem_append_right _ hm))))
      simp [h1, h2, h3, h4]
    · intro k
      rw [show (1 + stepsT c + N2) + k = Nat.succ (stepsT c + (N2 + k)) by omega]
      rw [ppLoop_succ a w _ _ p rfl]
      rw [ppStepAt_fresh_cons a w _ p (rootId c)
        (rootsF f1t ++ (rootId s :: rootsF f2)) hpfresh hcalcons]
      rw [ppLoop_tree a w c hC hndc _ ?hfrc (N2 + k) (d + 1)
        (out ++ printBlock w d (getNode a p))]
      case hfrc =>
        intro j hj
        have h2 : j ≠ p := fun hEq => hpc (hEq ▸ hj)
        rw [if_neg h2]
        exact hfresh j
          (by rw [hidu]; exact List.mem_cons_of_mem _ (List.mem_append_left _ hj))
          (fun hm => hdisjc hj (List.mem_append_right _ (List.mem_append_left _ hm)))
      rw [hcallc, Int.add_sub_cancel, hrun2 k]
      refine congrArg (ppLoop a w k) ?_
      have hOUT : ((out ++ printBlock w d (getNode a p))
            ++ specRenderT a w (d + 1) c) ++ extra2
          = out ++ (printBlock w d (getNode a p)
            ++ (specRenderT a w (d + 1) c ++ extra2)) := by
        simp [List.append_assoc]
      rw [hOUT]

/-- Ascending from an exhausted strict subtree `s` all the way up through
the enclosing tree `t`: every node of `t` outside `s` is printed exactly
once and control passes to the caller of `t`'s own root. -/
theorem ppLoop_ascend (a : Arena) (w : Nat) (s t : PTree)
    (hdesc : Relation.TransGen ICS s t)
    (hT : agreesT a t) (hnd : (idsT t).Nodup)
    (iters : Nat → Option (List Nat))
    (hdone : ∀ j ∈ idsT s, iters j = Option.some [])
    (hfresh : ∀ j ∈ idsT t, j ∉ idsT s → iters j = Option.none)
    (d : Int) (out : List String) :
    ∃ (N : Nat) (extra : List String) (iters2 : Nat → Option (List Nat)) (d2 : Int),
      headerCount extra + sizeT s = sizeT t ∧
      (∀ j ∈ idsT t, iters2 j = Option.some []) ∧
      (∀ j, j ∉ idsT t → iters2 j = iters j) ∧
      ∀ k, ppLoop a w (N + k)
        { current := (getNode a (rootId s)).caller, depth := d,
          iters := iters, out := out }
      = ppLoop a w k
        { current := (getNode a (rootId t)).caller, depth := d2,
          iters := iters2, out := out ++ extra } := by
  revert iters d out
  induction hdesc using Relation.TransGen.head_induction_on with
  | base h =>
    intro iters hdone hfresh d out
    obtain ⟨N, extra, iters2, hhc, hi, ho, hrun⟩ :=
      ppLoop_level a w _ t h hT hnd iters hdone hfresh d out
    refine ⟨N, extra, iters2, d - 1, hhc, hi, ho, ?_⟩
    intro k
    rw [ICS_caller h hT]
    exact hrun k
  | ih h1 h2 IH =>
    intro iters hdone hfresh d out
    obtain ⟨hU, hndU, hsubU⟩ := transGen_sub h2 hT hnd
    have hsubS := (ICS_sub h1 hU hndU).2.2
    obtain ⟨N1, extra1, iters1, hhc1, hi1, ho1, hrun1⟩ :=
      ppLoop_level a w _ _ h1 hU hndU iters hdone
        (fun j hj hjs => hfresh j (hsubU j hj) hjs) d out
    obtain ⟨N2, extra2, iters2, d2, hhc2, hi2, ho2, hrun2⟩ :=
      IH iters1 hi1
        (fun j hj hju => (ho1 j hju).trans
          (hfresh j hj (fun hm => hju (hsubS _ hm))))
        (d - 1) (out ++ extra1)
    refine ⟨N1 + N2, extra1 ++ extra2, iters2, d2, ?_, hi2, ?_, ?_⟩
    · rw [headerCount_append]
      omega
    · intro j hj
      exact (ho2 j hj).trans (ho1 j (fun hm => hj (hsubU j hm)))
    · intro k
      rw [show (N1 + N2) + k = N1 + (N2 + k) by omega]
      rw [ICS_caller h1 hU]
      rw [hrun1 (N2 + k), hrun2 k]
      refine congrArg (ppLoop a w k) ?_
      rw [List.append_assoc]

/-- C10: started on a record `s` that has a caller (a non-root of a
well-formed root tree `t`), the printer does not confine its output to the
subtree of `s`: after exhausting that subtree it follows the caller links
upward, printing the ancestors and the ancestors' other descendants (a
nonempty `extra` tail beyond the subtree rendering, with one header per
node of `t` outside `s`), and the loop reaches `current = None` — and
stays there — only after ascending past the root record whose caller is
`None`, having printed every node of the whole tree `t` exactly once;
started on the root itself it prints exactly the root's subtree. -/
theorem prettyPrint_nonroot_escapes (a : Arena) (w : Nat) (s t : PTree)
    (hT : agreesT a t) (hnd : (idsT t).Nodup)
    (hroot : (getNode a (rootId t)).caller = Option.none)
    (hdesc : Relation.TransGen ICS s t) :
    ∃ (N : Nat) (extra : List String),
      extra ≠ [] ∧
      prettyPrint a (rootId s) w N = specRenderT a w 0 s ++ extra ∧
      headerCount (prettyPrint a (rootId s) w N) = sizeT t ∧
      sizeT s < sizeT t ∧
      (ppLoop a w N (initPP (rootId s))).current = Option.none ∧
      (∀ m, ppLoop a w (N + m) (initPP (rootId s))
        = ppLoop a w N (initPP (rootId s))) ∧
      prettyPrint a (rootId t) w (stepsT t) = specRenderT a w 0 t := by
  obtain ⟨hS, hndS, hsubS⟩ := transGen_sub hdesc hT hnd
  have hlt := transGen_size hdesc
  have h1 : ∀ kq, ppLoop a w (stepsT s + kq)
      { current := Option.some (rootId s), depth := 0,
        iters := fun _ => Option.none, out := [] }
    = ppLoop a w kq
      { current := (getNode a (rootId s)).caller, depth := 0 - 1,
        iters := fun j => if j ∈ idsT s then Option.some [] else Option.none,
        out := [] ++ specRenderT a w 0 s } :=
    fun kq => ppLoop_tree a w s hS hndS (fun _ => Option.none)
      (fun j _ => rfl) kq 0 []
  simp only [List.nil_append] at h1
  obtain ⟨N2, extra, iters2, d2, hhc, hi2, ho2, hrun2⟩ :=
    ppLoop_ascend a w s t hdesc hT hnd
      (fun j => if j ∈ idsT s then Option.some [] else Option.none)
      (fun j hj => by simp [hj]) (fun j hj hjs => by simp [hjs])
      ((0 : Int) - 1) (specRenderT a w 0 s)
  have hAll : ∀ m, ppLoop a w ((stepsT s + N2) + m) (initPP (rootId s))
      = { current := Option.none, depth := d2, iters := iters2,
          out := specRenderT a w 0 s ++ extra } := by
    intro m
    rw [show (stepsT s + N2) + m = stepsT s + (N2 + m) by omega]
    rw [show initPP (rootId s)
        = { current := Option.some (rootId s), depth := 0,
            iters := fun _ => Option.none, out := [] } from rfl]
    rw [h1 (N2 + m), hrun2 m, hroot]
    exact ppLoop_done a w _ rfl m
  have hA0 : ppLoop a w (stepsT s + N2) (initPP (rootId s))
      = { current := Option.none, depth := d2, iters := iters2,
          out := specRenderT a w 0 s ++ extra } := by
    have hx := hAll 0
    rwa [Nat.add_zero] at hx
  have h2 := ppLoop_tree a w t hT hnd (fun _ => Option.none)
    (fun j _ => rfl) 0 0 []
  rw [Nat.add_zero, ppLoop_zero] at h2
  have h3 : prettyPrint a (rootId t) w (stepsT t) = specRenderT a w 0 t := by
    unfold prettyPrint
    rw [show initPP (rootId t)
        = { current := Option.some (rootId t), depth := 0,
            iters := fun _ => Option.none, out := [] } from rfl, h2]
    show [] ++ specRenderT a w 0 t = specRenderT a w 0 t
    rw [List.nil_append]
  refine ⟨stepsT s + N2, extra, ?_, ?_, ?_, hlt, ?_, ?_, h3⟩
  · intro he
    rw [he] at hhc
    rw [show headerCount ([] : List String) = 0 from rfl] at hhc
    omega
  · unfold prettyPrint
    rw [hA0]
  · unfold prettyPrint
    rw [hA0]
    show headerCount (specRenderT a w 0 s ++ extra) = sizeT t
    rw [headerCount_append, headerCount_specRenderT]
    omega
  · rw [hA0]
  · intro m
    rw [hAll m, hA0]

/-- Witness for C10 on the concrete two-node tree: starting the printer on
the child record 1 (whose caller is record 0). -/
theorem prettyPrint_nonroot_escapes_witness :
    (agreesT arenaPP treePP ∧ (idsT treePP).Nodup ∧
      (getNode arenaPP (rootId treePP)).caller = Option.none ∧
      Relation.TransGen ICS (PTree.node 1 PForest.nil) treePP) ∧
    (∃ (N : Nat) (extra : List String),
      extra ≠ [] ∧
      prettyPrint arenaPP (rootId (PTree.node 1 PForest.nil)) 4 N
        = specRenderT arenaPP 4 0 (PTree.node 1 PForest.nil) ++ extra ∧
      headerCount (prettyPrint arenaPP (rootId (PTree.node 1 PForest.nil)) 4 N)
        = sizeT treePP ∧
      sizeT (PTree.node 1 PForest.nil) < sizeT treePP ∧
      (ppLoop arenaPP 4 N (initPP (rootId (PTree.node 1 PForest.nil)))).current
        = Option.none ∧
      (∀ m, ppLoop arenaPP 4 (N + m) (initPP (rootId (PTree.node 1 PForest.nil)))
        = ppLoop arenaPP 4 N (initPP (rootId (PTree.node 1 PForest.nil)))) ∧
      prettyPrint arenaPP (rootId treePP) 4 (stepsT treePP)
        = specRenderT arenaPP 4 0 treePP) :=
  ⟨⟨agreesT_arenaPP, by decide, rfl,
    Relation.TransGen.single ⟨0, PForest.nil, PForest.nil, rfl⟩⟩,
   prettyPrint_nonroot_escapes arenaPP 4 (PTree.node 1 PForest.nil) treePP
     agreesT_arenaPP (by decide) rfl
     (Relation.TransGen.single ⟨0, PForest.nil, PForest.nil, rfl⟩)⟩
